import Mathlib

/-!
Verification of the BigQuery AST toolkit (bigquery-ast-types).

The development shallowly embeds, in Lean 4:

* the validating builder functions of `builders.py` as given in
  `src/wip/PHASE1_IMPLEMENTATION_GUIDE.md` (`group_by`, `group_by_rollup`,
  `param`, `interval`, `json`), operating over a model of the Python
  value universe and returning `Except ValidationError _`;
* the engine components whose sources are not in the repository snapshot
  (collection.py, node_path.py, scope.py, serializer.py): those are
  modelled from the specification, each marked `Modelled from the spec:`.

Definitions come first, then the lemmas and claim theorems.
-/

namespace BQAst

/-- ValidationError raised by the validating builders; carries the message. -/
structure ValidationError where
  msg : String
deriving Repr, DecidableEq

/-- Expression nodes of the builder-level AST (`types.py`): the variants the
Phase 1 builders construct or accept.  `identifier` models `Identifier`,
`integerLiteral` models `IntegerLiteral`; `otherExpr` stands for any further
`Expression` subclass instance, which the builders pass through unchanged. -/
inductive PExpr where
  | identifier (name : String)
  | integerLiteral (value : Int)
  | otherExpr (tag : Nat)
deriving Repr, DecidableEq

/-- GroupByType enum from `types.py` (guide, GROUP BY type updates). -/
inductive GroupByType where
  | standard
  | rollup
  | cube
  | groupingSets
  | all
deriving Repr, DecidableEq

/-- GroupByClause dataclass from `types.py` (guide): expressions list,
group type, and optional grouping sets. -/
structure GroupByClause where
  expressions : List PExpr := []
  group_type : GroupByType := .standard
  grouping_sets : Option (List (List PExpr)) := none
deriving Repr, DecidableEq

/-- NamedParameter node (`@name` query parameter). -/
structure NamedParameter where
  name : String
deriving Repr, DecidableEq

/-- IntervalLiteral node: a value string plus optional range parts. -/
structure IntervalLiteral where
  value : String
  from_part : Option String := none
  to_part : Option String := none
deriving Repr, DecidableEq

/-- JSONLiteral node: the JSON text. -/
structure JSONLiteral where
  value : String
deriving Repr, DecidableEq

/-- Argument universe of `b.group_by`, whose Python signature is
`*expressions: Union[Expression, int, str]`. -/
inductive GroupByArg where
  | expr (e : PExpr)
  | int (i : Int)
  | str (s : String)
deriving Repr, DecidableEq

/-- Translation of the per-argument loop body of `group_by` in the guide:
an `int` below 1 is rejected, an `int` becomes an `IntegerLiteral`, a `str`
becomes an `Identifier`, an `Expression` is kept. -/
def groupByArgExpr : GroupByArg → Except ValidationError PExpr
  | .int i =>
    if i < 1 then
      .error ⟨"GROUP BY position must be >= 1, got " ++ toString i⟩
    else
      .ok (.integerLiteral i)
  | .str s => .ok (.identifier s)
  | .expr e => .ok e

/-- Translation of the argument loop of `group_by`: maps `groupByArgExpr`
over the arguments, propagating the first ValidationError. -/
def groupByArgsExprs : List GroupByArg → Except ValidationError (List PExpr)
  | [] => .ok []
  | a :: rest => do
    let e ← groupByArgExpr a
    let es ← groupByArgsExprs rest
    .ok (e :: es)

/-- Builders.group_by from the guide.  A single argument equal to the
string `"ALL"` yields `GroupByClause(group_type=GroupByType.ALL)`; otherwise
each argument is converted by the loop and a standard clause is returned.
The Python test `expressions[0] == "ALL"` only holds for the `str "ALL"`
argument (an `int` or `Expression` never equals a Python `str`). -/
def group_by (expressions : List GroupByArg) : Except ValidationError GroupByClause :=
  if expressions = [.str "ALL"] then
    .ok { group_type := .all }
  else do
    let es ← groupByArgsExprs expressions
    .ok { expressions := es }

/-- Builders.group_by_rollup from the guide: zero expressions are rejected;
otherwise a ROLLUP clause over the expressions is returned (the per-element
`isinstance(expr, Expression)` check always passes for `PExpr` inputs). -/
def group_by_rollup (expressions : List PExpr) : Except ValidationError GroupByClause :=
  if expressions = [] then
    .error ⟨"ROLLUP requires at least one expression"⟩
  else
    .ok { expressions := expressions, group_type := .rollup }

/-- Character predicate matching Python's `str.isalpha` on ASCII input
(the guide's builders are exercised on ASCII names). -/
def pyIsAlpha (c : Char) : Bool := c.isAlpha

/-- Character predicate matching Python's `str.isalnum` on ASCII input. -/
def pyIsAlnum (c : Char) : Bool := c.isAlphanum

/-- Builders.param from the guide: the name must be a non-empty string,
must start with a letter or underscore, and every later character must be
alphanumeric or an underscore; otherwise a ValidationError is raised. -/
def param (name : String) : Except ValidationError NamedParameter :=
  if name = "" then
    .error ⟨"Parameter name must be a non-empty string"⟩
  else
    match name.data with
    | [] => .error ⟨"Parameter name must be a non-empty string"⟩
    | c0 :: rest =>
      if !(pyIsAlpha c0 || c0 = '_') then
        .error ⟨"Parameter name must start with letter or underscore: " ++ name⟩
      else if rest.all (fun c => pyIsAlnum c || c = '_') then
        .ok ⟨name⟩
      else
        .error ⟨"Parameter name can only contain letters, numbers, and underscores: " ++ name⟩

/-- Interval unit order from the guide's `interval` builder: coarser units
come first.  The same list also serves as the `valid_units` set. -/
def unitOrder : List String :=
  ["YEAR", "QUARTER", "MONTH", "WEEK", "DAY",
   "HOUR", "MINUTE", "SECOND", "MILLISECOND", "MICROSECOND"]

/-- Python's `str.upper` on the ASCII unit names the builder receives. -/
def pyToUpper (s : String) : String := String.mk (s.data.map Char.toUpper)

/-- Value argument of `b.interval`, whose Python signature is
`value: Union[int, str]`. -/
inductive IntervalValue where
  | int (i : Int)
  | str (s : String)
deriving Repr, DecidableEq

/-- Python str() of an interval value. -/
def IntervalValue.pyStr : IntervalValue → String
  | .int i => toString i
  | .str s => s

/-- Single-unit result of `interval` (the `else` of the code's
`if to_unit:`): the unit is folded into the value string. -/
def intervalSingle (value : IntervalValue) (unitUpper : String) : IntervalLiteral :=
  match value with
  | .int i => { value := toString i ++ " " ++ unitUpper }
  | .str s => { value := "'" ++ s ++ "' " ++ unitUpper }

/-- Builders.interval from the guide.  The starting unit is uppercased and
must be a member of the valid unit set.  The range branch is guarded by
Python's `if to_unit:`, which is truthy only for a non-None, non-empty
string: `None` and `""` both fall through to the single-unit result.  In
the range branch the ending unit must also be valid and the starting unit
must come strictly earlier in `unitOrder` (be strictly coarser), and the
result carries `from_part`/`to_part`. -/
def interval (value : IntervalValue) (unit : String) (toUnit : Option String) :
    Except ValidationError IntervalLiteral :=
  let unitUpper := pyToUpper unit
  if unitUpper ∉ unitOrder then
    .error ⟨"Invalid interval unit: " ++ unit⟩
  else
    match toUnit with
    | some tu =>
      if tu = "" then
        .ok (intervalSingle value unitUpper)
      else
        let tuUpper := pyToUpper tu
        if tuUpper ∉ unitOrder then
          .error ⟨"Invalid interval to_unit: " ++ tu⟩
        else if unitOrder.indexOf tuUpper ≤ unitOrder.indexOf unitUpper then
          .error ⟨"Invalid interval range: " ++ unit ++ " TO " ++ tu⟩
        else
          .ok { value := value.pyStr, from_part := some unitUpper, to_part := some tuUpper }
    | none => .ok (intervalSingle value unitUpper)

/-- Python value universe reaching `b.json`: dictionaries (insertion-ordered
association lists, as Python dicts are), lists, strings, integers, booleans
and None. -/
inductive PyVal where
  | str (s : String)
  | int (n : Int)
  | bool (b : Bool)
  | null
  | list (xs : List PyVal)
  | dict (entries : List (String × PyVal))
deriving Repr

/-- Left-brace character, kept as a named constant. -/
def lbrace : Char := Char.ofNat 123

/-- Right-brace character, kept as a named constant. -/
def rbrace : Char := Char.ofNat 125

/-- Escaping applied by `json.dumps` to string content, modelled for the
ASCII inputs the builders are exercised on: quote and backslash are
escaped, other characters pass through. -/
def jsonEscape (s : String) : String :=
  String.mk (s.data.flatMap fun c =>
    if c = '"' then ['\\', '"']
    else if c = '\\' then ['\\', '\\']
    else [c])

mutual
/-- Python's `json.dumps(value, separators=(',', ':'))`, modelled for the
`PyVal` universe: compact separators, dict keys emitted in insertion
order. -/
def dumps : PyVal → String
  | .str s => "\"" ++ jsonEscape s ++ "\""
  | .int n => toString n
  | .bool true => "true"
  | .bool false => "false"
  | .null => "null"
  | .list xs => "[" ++ String.intercalate "," (dumpsList xs) ++ "]"
  | .dict es =>
      String.mk [lbrace] ++ String.intercalate "," (dumpsEntries es) ++ String.mk [rbrace]

/-- Renders each element of a JSON array. -/
def dumpsList : List PyVal → List String
  | [] => []
  | x :: xs => dumps x :: dumpsList xs

/-- Renders each `key:value` member of a JSON object, in list order. -/
def dumpsEntries : List (String × PyVal) → List String
  | [] => []
  | kv :: es => ("\"" ++ jsonEscape kv.1 ++ "\":" ++ dumps kv.2) :: dumpsEntries es
end

/-- Whitespace accepted between JSON tokens by `json.loads`. -/
def jsonWs (c : Char) : Bool := c = ' ' ∨ c = '\t' ∨ c = '\n' ∨ c = '\r'

/-- Drops leading JSON whitespace. -/
def jskipWs : List Char → List Char
  | [] => []
  | c :: cs => if jsonWs c then jskipWs cs else c :: cs

/-- Hexadecimal digit test, as in a JSON `\uXXXX` escape. -/
def isHexDigitCh (c : Char) : Bool :=
  c.isDigit || ('a' ≤ c && c ≤ 'f') || ('A' ≤ c && c ≤ 'F')

/-- Scans a JSON string body after the opening quote, validating escape
sequences the way `json.loads` does: a backslash must introduce one of
`" \\ / b f n r t` or `u` with four hex digits, and raw control
characters below U+0020 are rejected (strict mode); returns the remainder
after the closing quote, or `none`. -/
def jscanString : List Char → Option (List Char)
  | [] => none
  | c :: cs =>
    if c = '"' then some cs
    else if c = '\\' then
      match cs with
      | [] => none
      | e :: cs2 =>
        if e = '"' ∨ e = '\\' ∨ e = '/' ∨ e = 'b' ∨ e = 'f' ∨ e = 'n' ∨ e = 'r' ∨ e = 't' then
          jscanString cs2
        else if e = 'u' then
          match cs2 with
          | h1 :: h2 :: h3 :: h4 :: cs3 =>
            if isHexDigitCh h1 && isHexDigitCh h2 && isHexDigitCh h3 && isHexDigitCh h4 then
              jscanString cs3
            else none
          | _ => none
        else none
    else if c.toNat < 32 then none
    else jscanString cs

/-- Scans a nonempty decimal digit run. -/
def jscanDigits1 (cs : List Char) : Option (List Char) :=
  if cs.takeWhile Char.isDigit = [] then none else some (cs.dropWhile Char.isDigit)

/-- Scans the optional exponent of a JSON number: `e` or `E`, an optional
sign, and at least one digit. -/
def jscanExpPart : List Char → Option (List Char)
  | [] => some []
  | c :: rest =>
    if c = 'e' ∨ c = 'E' then
      match rest with
      | [] => none
      | s :: rest2 =>
        if s = '+' ∨ s = '-' then jscanDigits1 rest2 else jscanDigits1 (s :: rest2)
    else some (c :: rest)

/-- Scans the optional fraction of a JSON number (a dot with at least one
digit) followed by the optional exponent. -/
def jscanFracPart : List Char → Option (List Char)
  | '.' :: rest =>
    (match jscanDigits1 rest with
     | some rest2 => jscanExpPart rest2
     | none => none)
  | cs => jscanExpPart cs

/-- Scans a JSON number after the optional minus sign, with the grammar
`json.loads` uses: the integer part is `0` or a nonzero digit followed by
digits (no leading zeros), then optional fraction and exponent. -/
def jscanNumber : List Char → Option (List Char)
  | [] => none
  | '0' :: rest => jscanFracPart rest
  | c :: rest => if c.isDigit then jscanFracPart (rest.dropWhile Char.isDigit) else none

mutual
/-- Recogniser for a JSON value, modelling the grammar accepted by Python's
`json.loads`; consumes one value and returns the remainder. -/
def jvalue : Nat → List Char → Option (List Char)
  | 0, _ => none
  | _ + 1, [] => none
  | fuel + 1, c :: cs =>
    if c = '"' then jscanString cs
    else if c = '[' then
      match jskipWs cs with
      | ']' :: cs2 => some cs2
      | cs2 => jitems fuel cs2
    else if c = lbrace then
      match jskipWs cs with
      | d :: cs2 =>
        if d = rbrace then some cs2 else jmembers fuel (d :: cs2)
      | [] => none
    else if c = 't' then
      match cs with
      | 'r' :: 'u' :: 'e' :: cs2 => some cs2
      | _ => none
    else if c = 'f' then
      match cs with
      | 'a' :: 'l' :: 's' :: 'e' :: cs2 => some cs2
      | _ => none
    else if c = 'n' then
      match cs with
      | 'u' :: 'l' :: 'l' :: cs2 => some cs2
      | _ => none
    else if c = '-' then
      match cs with
      | 'I' :: 'n' :: 'f' :: 'i' :: 'n' :: 'i' :: 't' :: 'y' :: cs2 => some cs2
      | _ => jscanNumber cs
    else if c = 'N' then
      match cs with
      | 'a' :: 'N' :: cs2 => some cs2
      | _ => none
    else if c = 'I' then
      match cs with
      | 'n' :: 'f' :: 'i' :: 'n' :: 'i' :: 't' :: 'y' :: cs2 => some cs2
      | _ => none
    else if c.isDigit then jscanNumber (c :: cs)
    else none

/-- Recogniser for the comma-separated items of a non-empty JSON array,
up to and including the closing bracket. -/
def jitems : Nat → List Char → Option (List Char)
  | 0, _ => none
  | fuel + 1, cs => do
    let rest ← jvalue fuel (jskipWs cs)
    match jskipWs rest with
    | ',' :: cs2 => jitems fuel cs2
    | ']' :: cs2 => some cs2
    | _ => none

/-- Recogniser for the comma-separated `key : value` members of a
non-empty JSON object, up to and including the closing brace. -/
def jmembers : Nat → List Char → Option (List Char)
  | 0, _ => none
  | fuel + 1, cs =>
    match jskipWs cs with
    | '"' :: cs1 => do
      let afterKey ← jscanString cs1
      match jskipWs afterKey with
      | ':' :: cs2 => do
        let rest ← jvalue fuel (jskipWs cs2)
        match jskipWs rest with
        | ',' :: cs3 => jmembers fuel cs3
        | d :: cs3 =>
          if d = rbrace then some cs3 else none
        | [] => none
      | _ => none
    | _ => none
end

/-- Python's `json.loads(s)` viewed as a validity test: `true` exactly when
the whole string is one JSON value surrounded by optional whitespace.  The
`NaN`, `Infinity` and `-Infinity` constants are accepted, as they are by
`json.loads` with its default `parse_constant`. -/
def jsonLoadsOk (s : String) : Bool :=
  match jvalue (s.length + 1) (jskipWs s.data) with
  | some rest => jskipWs rest = []
  | none => false

/-- Builders.json from the guide: a dict or list input is re-serialized with
compact separators `(',', ':')`; a string input is kept byte-for-byte after
`json.loads` validates it, and rejected when `json.loads` fails; any other
input type is rejected. -/
def json (value : PyVal) : Except ValidationError JSONLiteral :=
  match value with
  | .dict es => .ok ⟨dumps (.dict es)⟩
  | .list xs => .ok ⟨dumps (.list xs)⟩
  | .str s =>
    if jsonLoadsOk s then .ok ⟨s⟩
    else .error ⟨"Invalid JSON string"⟩
  | _ => .error ⟨"JSON value must be dict, list, or str"⟩

/-- Modelled from the spec: `collection.py` is absent from the snapshot;
`Collection.insertBefore(node)` on paths targeting positions `ps` of one
shared ordered-many parent slot must "process paths in reverse positional
order" before applying.  With `ps` in collection (ascending positional)
order, the `foldr` applies the insertion at the last position first. -/
def insertBeforeAll (x : α) (ps : List Nat) (slot : List α) : List α :=
  ps.foldr (fun p s => List.insertIdx p x s) slot

/-- Modelled from the spec: `Collection.insertAfter(node)`, reverse
positional order, inserting just after each targeted position. -/
def insertAfterAll (x : α) (ps : List Nat) (slot : List α) : List α :=
  ps.foldr (fun p s => List.insertIdx (p + 1) x s) slot

/-- Modelled from the spec: `Collection.remove()`, reverse positional
order, erasing each targeted position. -/
def removeAll (ps : List Nat) (slot : List α) : List α :=
  ps.foldr (fun p s => s.eraseIdx p) slot

/-- Walks a slot left to right carrying the absolute position `i`,
replacing the element at each targeted position by `fIn` applied to it and
keeping every untargeted element.  Spec-side description of what a batch
edit over positions `ps` must produce. -/
def editGo (fIn : α → List α) (ps : List Nat) : Nat → List α → List α
  | _, [] => []
  | i, a :: rest => (if i ∈ ps then fIn a else [a]) ++ editGo fIn ps (i + 1) rest

/-- Spec-side outcome of a batched insert-before: each targeted element is
immediately preceded by exactly one copy of `x`, all elements keep their
relative order. -/
def withCopiesBefore (x : α) (ps : List Nat) (slot : List α) : List α :=
  editGo (fun a => [x, a]) ps 0 slot

/-- Spec-side outcome of a batched insert-after. -/
def withCopiesAfter (x : α) (ps : List Nat) (slot : List α) : List α :=
  editGo (fun a => [a, x]) ps 0 slot

/-- Spec-side outcome of a batched remove: targeted elements disappear, the
others keep their relative order (the gap is closed). -/
def withRemoved (ps : List Nat) (slot : List α) : List α :=
  editGo (fun _ => []) ps 0 slot

/-- Modelled from the spec: `scope.py` is absent from the snapshot; a Scope
is a chain of binding frames, innermost first, each frame mapping names to
bindings with a back-link to the enclosing scope. -/
inductive Scope (β : Type) where
  | root
  | child (bindings : List (String × β)) (parent : Scope β)

/-- Modelled from the spec: lookup walks innermost to outermost and returns
the binding of the nearest enclosing frame that binds the name; an unbound
name yields `none` (a "not found" result, not an error). -/
def Scope.lookup {β : Type} : Scope β → String → Option β
  | .root, _ => none
  | .child bs p, n =>
    match List.lookup n bs with
    | some b => some b
    | none => p.lookup n

/-- Binding frames of a scope chain, innermost first. -/
def Scope.frames {β : Type} : Scope β → List (List (String × β))
  | .root => []
  | .child bs p => bs :: p.frames

/-- Emission events of the serializer while printing an option map: a key,
a value, or punctuation. -/
inductive EmitEvent where
  | key (s : String)
  | val (s : String)
  | punct (s : String)
deriving Repr, DecidableEq

/-- Modelled from the spec: `serializer.py` is absent from the snapshot;
an option map (statement-level OPTIONS) is serialized in insertion order -
the emission trace lists each entry's key, `=`, and value in the order the
entries appear, with `, ` between entries. -/
def emitOptions : List (String × String) → List EmitEvent
  | [] => []
  | kv :: rest =>
    [.key kv.1, .punct "=", .val kv.2]
      ++ (if rest = [] then [] else [EmitEvent.punct ", "]) ++ emitOptions rest

/-- Concatenates the text of an emission trace. -/
def renderEvents : List EmitEvent → String
  | [] => ""
  | .key s :: es => s ++ renderEvents es
  | .val s :: es => s ++ renderEvents es
  | .punct s :: es => s ++ renderEvents es

/-- Modelled from the spec: the serializer's rendering of an OPTIONS map is
the concatenation of its emission trace inside `OPTIONS(...)`. -/
def serializeOptions (opts : List (String × String)) : String :=
  "OPTIONS(" ++ renderEvents (emitOptions opts) ++ ")"

/-- Keys of an emission trace, in emission order. -/
def emittedKeys (es : List EmitEvent) : List String :=
  es.filterMap fun e =>
    match e with
    | .key s => some s
    | _ => none

/-- Variant tags of the tree nodes, as relevant to the traversal engine:
the engine dispatches on the variant only. -/
inductive Variant where
  | binaryOp
  | identifier
  | literalV
  | selectV
  | other (k : Nat)
deriving Repr, DecidableEq

/-- Modelled from the spec: `node_path.py` is absent from the snapshot; a
tree node owns an identity (the node instance), a variant tag, and its
ordered children. -/
inductive ANode where
  | mk (nid : Nat) (variant : Variant) (children : List ANode)

/-- Identity of a node instance. -/
def ANode.nid : ANode → Nat
  | .mk i _ _ => i

/-- Variant tag of a node. -/
def ANode.variant : ANode → Variant
  | .mk _ v _ => v

mutual
/-- Depth-first pre-order walk of a tree: the node itself, then the walks
of its children left to right. -/
def walk : ANode → List ANode
  | .mk i v cs => .mk i v cs :: walkList cs

/-- Concatenated walks of a list of sibling subtrees. -/
def walkList : List ANode → List ANode
  | [] => []
  | c :: cs => walk c ++ walkList cs
end

mutual
/-- Number of node instances in a tree. -/
def sizeNode : ANode → Nat
  | .mk _ _ cs => 1 + sizeList cs

/-- Total number of node instances in a list of sibling subtrees. -/
def sizeList : List ANode → Nat
  | [] => 0
  | c :: cs => sizeNode c + sizeList cs
end

/-- Boolean variant test used by `find`. -/
def hasVariant (v : Variant) (n : ANode) : Bool := n.variant = v

mutual
/-- Modelled from the spec: `find(variant)` of `collection.py` - a
depth-first pre-order search from the node downward collecting every node
of the given variant, in encounter order, without mutating the tree. -/
def findNode (v : Variant) : ANode → List ANode
  | .mk i var cs =>
    (if var = v then [ANode.mk i var cs] else []) ++ findList v cs

/-- Search over a list of sibling subtrees, in order. -/
def findList (v : Variant) : List ANode → List ANode
  | [] => []
  | c :: cs => findNode v c ++ findList v cs
end

/-- Modelled from the spec: `find` over a Collection searches from each
input path's node downward and returns all matches in encounter order
across the input paths. -/
def findAll (v : Variant) : List ANode → List ANode
  | [] => []
  | r :: rs => findNode v r ++ findAll v rs

/-- Number of nodes of a given variant in a tree. -/
def countVariant (v : Variant) (t : ANode) : Nat :=
  ((walk t).filter (hasVariant v)).length

/-- Node-instance identities in pre-order. -/
def nodeIds (t : ANode) : List Nat := (walk t).map ANode.nid

/-- Identities of a sibling list, in pre-order. -/
def idsList (cs : List ANode) : List Nat := (walkList cs).map ANode.nid

/-- Invariant N1 as observable on the model: walking the tree meets each
node instance at most once (all identities distinct), which rules out a
node reachable from two parents; acyclicity and single-rootedness are
built into the inductive tree. -/
def ANode.wellFormed (t : ANode) : Prop := (nodeIds t).Nodup

instance (t : ANode) : Decidable t.wellFormed := by
  unfold ANode.wellFormed
  infer_instance

/-- Checks that a node to be attached is a legal standalone tree: its own
identities are distinct and disjoint from the target tree's, modelling the
spec's "fails if `newNode` is already attached elsewhere (must be freshly
built)". -/
def freshFor (new t : ANode) : Bool :=
  decide (nodeIds new).Nodup && (nodeIds new).all fun i => decide (i ∉ nodeIds t)

/-- Navigates a path (child indices) down the tree and applies a
children-list edit at the final step; any invalid index fails loudly with
`none`, as the spec requires of structural edits. -/
def applyAt (f : List ANode → Nat → Option (List ANode)) :
    ANode → List Nat → Option ANode
  | _, [] => none
  | .mk i v cs, [j] =>
    match f cs j with
    | some cs2 => some (.mk i v cs2)
    | none => none
  | .mk i v cs, j :: rest =>
    match cs[j]? with
    | some c =>
      match applyAt f c rest with
      | some c2 => some (.mk i v (cs.set j c2))
      | none => none
    | none => none

/-- Children-list edit of `replace(newNode)`: the slot at the index is
replaced. -/
def replaceOp (new : ANode) (cs : List ANode) (j : Nat) : Option (List ANode) :=
  if j < cs.length then some (cs.set j new) else none

/-- Children-list edit of `insertBefore(node)` on an ordered-many slot. -/
def insertBeforeOp (new : ANode) (cs : List ANode) (j : Nat) : Option (List ANode) :=
  if j < cs.length then some (List.insertIdx j new cs) else none

/-- Children-list edit of `insertAfter(node)` on an ordered-many slot. -/
def insertAfterOp (new : ANode) (cs : List ANode) (j : Nat) : Option (List ANode) :=
  if j < cs.length then some (List.insertIdx (j + 1) new cs) else none

/-- Children-list edit of `remove()`: the element is detached and the gap
closes. -/
def removeOp (cs : List ANode) (j : Nat) : Option (List ANode) :=
  if j < cs.length then some (cs.eraseIdx j) else none

/-- Structural edits of the Navigator, each targeting a path from the
root. -/
inductive Edit where
  | replace (path : List Nat) (newNode : ANode)
  | insertBefore (path : List Nat) (newNode : ANode)
  | insertAfter (path : List Nat) (newNode : ANode)
  | remove (path : List Nat)

/-- Modelled from the spec: applies one structural edit.  Replacing the
root swaps the whole tree for the new node; insert/remove at the root fail
(the root occupies no ordered-many slot); attaching a node that is not
fresh fails, enforcing invariant N1. -/
def applyEdit (t : ANode) : Edit → Option ANode
  | .replace path new =>
    if freshFor new t then
      match path with
      | [] => some new
      | _ :: _ => applyAt (replaceOp new) t path
    else none
  | .insertBefore path new =>
    if freshFor new t then applyAt (insertBeforeOp new) t path else none
  | .insertAfter path new =>
    if freshFor new t then applyAt (insertAfterOp new) t path else none
  | .remove path => applyAt removeOp t path

/-- Applies a sequence of structural edits, failing as soon as one edit
fails. -/
def applyEdits (t : ANode) : List Edit → Option ANode
  | [] => some t
  | e :: es =>
    match applyEdit t e with
    | some t2 => applyEdits t2 es
    | none => none

/-- Comparison operators of the round-trip model's `BinaryOp` nodes; in the
dialect these are non-associative, so a comparison operand that is itself a
comparison must be parenthesized - and only then. -/
inductive CompOp where
  | eqOp
  | ltOp
  | gtOp
deriving Repr, DecidableEq

/-- Modelled from the spec: the serializer and the conforming parser are
absent from the snapshot; the node taxonomy fragment the round-trip model
covers - integer literals, identifiers and binary comparisons. -/
inductive SExpr where
  | intLit (n : Nat)
  | ident (name : String)
  | binOp (left : SExpr) (op : CompOp) (right : SExpr)
deriving Repr, DecidableEq

/-- Select statement of the round-trip model: a select list, an optional
FROM table, an optional WHERE condition. -/
structure SSelect where
  selectList : List SExpr
  fromTable : Option String
  whereClause : Option SExpr
deriving Repr, DecidableEq

/-- Node of the round-trip model: an expression or a select statement. -/
inductive SNode where
  | expr (e : SExpr)
  | select (s : SSelect)
deriving Repr, DecidableEq

/-- Serialization modes of `serialize(node, mode)`. -/
inductive Mode where
  | pretty
  | compact
deriving Repr, DecidableEq

/-- Identifier/keyword/number characters: letters, digits, underscore. -/
def isWordCh (c : Char) : Bool := c.isAlphanum || c = '_'

/-- Self-delimiting punctuation characters of the dialect fragment. -/
def isSymCh (c : Char) : Bool :=
  c = '(' || c = ')' || c = ',' || c = '=' || c = '<' || c = '>'

/-- Whitespace the serializer may emit and the tokenizer skips. -/
def isSpaceCh (c : Char) : Bool := c = ' ' || c = '\n'

/-- Decimal digit character for a digit value. -/
def digitChar (d : Nat) : Char := Char.ofNat (48 + d)

/-- Digit value of a decimal digit character. -/
def digitVal (c : Char) : Nat := c.toNat - 48

/-- Decimal rendering of a natural number, most significant digit first. -/
def natToken (n : Nat) : List Char :=
  if n = 0 then ['0'] else ((Nat.digits 10 n).map digitChar).reverse

/-- Decimal reading of a digit-character run. -/
def readNat (cs : List Char) : Nat :=
  Nat.ofDigits 10 ((cs.map digitVal).reverse)

/-- Rendered operator token. -/
def opToken : CompOp → List Char
  | .eqOp => ['=']
  | .ltOp => ['<']
  | .gtOp => ['>']

/-- True for `BinaryOp` nodes. -/
def SExpr.isBin : SExpr → Bool
  | .binOp _ _ _ => true
  | _ => false

mutual
/-- Token sequence of an expression: a comparison prints its operands with
the operator between them, parenthesizing an operand exactly when the
operand is itself a comparison (the non-associative case where omitting
parentheses would change the grouping). -/
def exprTokens : SExpr → List (List Char)
  | .intLit n => [natToken n]
  | .ident s => [s.data]
  | .binOp l op r => operandTokens l ++ [opToken op] ++ operandTokens r

/-- Token sequence of a comparison operand: parenthesized exactly when the
operand is itself a comparison. -/
def operandTokens : SExpr → List (List Char)
  | .intLit n => [natToken n]
  | .ident s => [s.data]
  | .binOp l op r =>
    [['(']] ++ (operandTokens l ++ [opToken op] ++ operandTokens r) ++ [[')']]
end

/-- Token sequence of a comma-separated expression list. -/
def listTokens : List SExpr → List (List Char)
  | [] => []
  | [e] => exprTokens e
  | e :: rest => exprTokens e ++ [[',']] ++ listTokens rest

/-- Token sequence of the optional FROM clause. -/
def fromToks : Option String → List (List Char)
  | some t => ["FROM".data, t.data]
  | none => []

/-- Token sequence of the optional WHERE clause. -/
def whereToks : Option SExpr → List (List Char)
  | some w => ["WHERE".data] ++ exprTokens w
  | none => []

/-- Token sequence of a select statement: SELECT, the select list, then the
optional FROM and WHERE clauses. -/
def selectTokens (s : SSelect) : List (List Char) :=
  ["SELECT".data] ++ listTokens s.selectList
    ++ fromToks s.fromTable ++ whereToks s.whereClause

/-- Token sequence of a node. -/
def nodeTokens : SNode → List (List Char)
  | .expr e => exprTokens e
  | .select s => selectTokens s

/-- Compact-mode whitespace between two adjacent tokens: none before a
comma or closing parenthesis and none after an opening parenthesis, a
single space otherwise. -/
def compactSep (a b : List Char) : List Char :=
  if b = [','] ∨ b = [')'] ∨ a = ['('] then [] else [' ']

/-- Pretty-mode whitespace: a newline before each clause keyword, the
compact spacing elsewhere (keywords are already uppercase). -/
def prettySep (a b : List Char) : List Char :=
  if b = "FROM".data ∨ b = "WHERE".data then ['\n'] else compactSep a b

/-- Renders a token sequence, interleaving the mode's separators. -/
def renderTokens (sep : List Char → List Char → List Char) :
    List (List Char) → List Char
  | [] => []
  | [t] => t
  | t :: u :: rest => t ++ sep t u ++ renderTokens sep (u :: rest)

/-- Separator function of a mode. -/
def sepFor : Mode → (List Char → List Char → List Char)
  | .compact => compactSep
  | .pretty => prettySep

/-- Modelled from the spec: `serialize(node, mode)` renders the node's
token sequence with the mode's whitespace. -/
def serialize (n : SNode) (m : Mode) : String :=
  String.mk (renderTokens (sepFor m) (nodeTokens n))

/-- Tokenizer of a conforming parser: skips whitespace, reads each
punctuation character as its own token and each maximal letter/digit/
underscore run as a word token; any other character is rejected. -/
def tokenize : List Char → Option (List (List Char))
  | [] => some []
  | c :: cs =>
    if isSpaceCh c then tokenize cs
    else if isSymCh c then
      match tokenize cs with
      | some ts => some ([c] :: ts)
      | none => none
    else if isWordCh c then
      match tokenize (cs.dropWhile isWordCh) with
      | some ts => some ((c :: cs.takeWhile isWordCh) :: ts)
      | none => none
    else none
termination_by cs => cs.length
decreasing_by
  all_goals simp only [List.length_cons]
  all_goals try omega
  all_goals exact Nat.lt_succ_of_le (List.dropWhile_sublist _).length_le

/-- Word-token test: nonempty and all word characters. -/
def isWordTok (t : List Char) : Bool := !t.isEmpty && t.all isWordCh

/-- Number-token test: nonempty and all decimal digits. -/
def isDigitTok (t : List Char) : Bool := !t.isEmpty && t.all Char.isDigit

/-- Operator denoted by a token, if any. -/
def tokOp (t : List Char) : Option CompOp :=
  if t = ['='] then some .eqOp
  else if t = ['<'] then some .ltOp
  else if t = ['>'] then some .gtOp
  else none

mutual
/-- Atom parser of the conforming parser: a parenthesized comparison, an
integer literal, or an identifier. -/
def parseAtom : Nat → List (List Char) → Option (SExpr × List (List Char))
  | 0, _ => none
  | _ + 1, [] => none
  | fuel + 1, t :: ts =>
    if t = ['('] then
      match parseExprF fuel ts with
      | some (e, u :: ts2) => if u = [')'] then some (e, ts2) else none
      | _ => none
    else if isDigitTok t then some (.intLit (readNat t), ts)
    else if isWordTok t then some (.ident (String.mk t), ts)
    else none

/-- Expression recogniser of the conforming parser: an atom, optionally
followed by one comparison operator and a second atom (comparisons are
non-associative, so at most one operator appears unparenthesized). -/
def parseExprF : Nat → List (List Char) → Option (SExpr × List (List Char))
  | 0, _ => none
  | fuel + 1, ts =>
    match parseAtom fuel ts with
    | some (a, u :: ts2) =>
      match tokOp u with
      | some op =>
        match parseAtom fuel ts2 with
        | some (b, ts3) => some (.binOp a op b, ts3)
        | none => none
      | none => some (a, u :: ts2)
    | some (a, []) => some (a, [])
    | none => none
end

/-- Comma-separated expression list of a SELECT clause. -/
def parseList : Nat → List (List Char) → Option (List SExpr × List (List Char))
  | 0, _ => none
  | fuel + 1, ts =>
    match parseExprF fuel ts with
    | some (e, u :: ts2) =>
      if u = [','] then
        match parseList fuel ts2 with
        | some (es, ts3) => some (e :: es, ts3)
        | none => none
      else some ([e], u :: ts2)
    | some (e, []) => some ([e], [])
    | none => none

/-- Optional WHERE tail of a select statement; the input must end with
it. -/
def parseWhereTail (fuel : Nat) : List (List Char) → Option (Option SExpr)
  | [] => some none
  | u :: ts =>
    if u = "WHERE".data then
      match parseExprF fuel ts with
      | some (w, []) => some (some w)
      | _ => none
    else none

/-- Select-statement tail after the SELECT keyword: select list, optional
FROM table, optional WHERE condition, end of input. -/
def parseSelectTail (fuel : Nat) (ts : List (List Char)) : Option SSelect :=
  match parseList fuel ts with
  | some (es, u :: ts2) =>
    if u = "FROM".data then
      match ts2 with
      | tname :: ts3 =>
        if isWordTok tname then
          match parseWhereTail fuel ts3 with
          | some w => some ⟨es, some (String.mk tname), w⟩
          | none => none
        else none
      | [] => none
    else
      match parseWhereTail fuel (u :: ts2) with
      | some w => some ⟨es, none, w⟩
      | none => none
  | some (es, []) => some ⟨es, none, none⟩
  | none => none

/-- Fuel budget ample for any token sequence of this length. -/
def fuelOf (ts : List (List Char)) : Nat := 2 * ts.length + 2

/-- Token-level entry point of the conforming parser: a sequence starting
with SELECT is a select statement, anything else is one expression; the
whole input must be consumed. -/
def parseTokens (ts : List (List Char)) : Option SNode :=
  match ts with
  | [] => none
  | t :: ts2 =>
    if t = "SELECT".data then
      match parseSelectTail (fuelOf ts) ts2 with
      | some s => some (.select s)
      | none => none
    else
      match parseExprF (fuelOf ts) ts with
      | some (e, []) => some (.expr e)
      | _ => none

/-- Modelled from the spec: a conforming parser - turns the printed text
back into a tree of the taxonomy, by tokenizing and parsing. -/
def parseConforming (s : String) : Option SNode :=
  match tokenize s.data with
  | some ts => parseTokens ts
  | none => none

/-- Identifier well-formedness as the builders enforce it: nonempty, first
character a letter or underscore, word characters throughout, and not one
of the serializer's clause keywords. -/
def wfIdent (s : String) : Bool :=
  match s.data with
  | [] => false
  | c :: rest =>
    (c.isAlpha || c = '_') && rest.all isWordCh
      && !(s = "SELECT" || s = "FROM" || s = "WHERE")

/-- Well-formedness of an expression: every identifier in it is
well-formed. -/
def SExpr.wf : SExpr → Bool
  | .intLit _ => true
  | .ident s => wfIdent s
  | .binOp l _ r => l.wf && r.wf

/-- Well-formedness of a select statement: a nonempty select list of
well-formed expressions, a well-formed table name if present, a
well-formed condition if present. -/
def SSelect.wf (s : SSelect) : Bool :=
  !s.selectList.isEmpty && s.selectList.all SExpr.wf
    && (match s.fromTable with
        | some t => wfIdent t
        | none => true)
    && (match s.whereClause with
        | some w => w.wf
        | none => true)

/-- Well-formedness (constructibility) of a node. -/
def SNode.wf : SNode → Bool
  | .expr e => e.wf
  | .select s => s.wf

/-- Fuel needed by `parseAtom` on the operand rendering of an
expression. -/
def atomFuel : SExpr → Nat
  | .intLit _ => 1
  | .ident _ => 1
  | .binOp l _ r => 2 + max (atomFuel l) (atomFuel r)

/-- Fuel needed by `parseExprF` on the rendering of an expression. -/
def exprFuel : SExpr → Nat
  | .binOp l _ r => 1 + max (atomFuel l) (atomFuel r)
  | _ => 2

/-- Fuel needed by `parseList` on the rendering of an expression list. -/
def listFuel : List SExpr → Nat
  | [] => 1
  | [e] => exprFuel e + 1
  | e :: rest => max (exprFuel e) (listFuel rest) + 1

/-- Parameter-name rule of the dialect: first character a letter or
underscore, every later character alphanumeric or underscore. -/
def validParamName (name : String) : Bool :=
  match name.data with
  | [] => false
  | c :: rest => (pyIsAlpha c || c = '_') && rest.all (fun c2 => pyIsAlnum c2 || c2 = '_')

/-- Valid token shapes the serializer emits: a nonempty all-word-character
token, or a single self-delimiting punctuation character. -/
def ValidTok (t : List Char) : Prop :=
  (t ≠ [] ∧ ∀ c ∈ t, isWordCh c = true) ∨ (∃ c, isSymCh c = true ∧ t = [c])

/-- Well-behaved separator scheme: it emits only whitespace, and never
lets two word tokens touch. -/
def GoodSep (sep : List Char → List Char → List Char) : Prop :=
  ∀ a b, (∀ c ∈ sep a b, isSpaceCh c = true)
    ∧ (isWordTok a = true → isWordTok b = true → sep a b ≠ [])

/-! Theorems.  First the builder claims, then the engine claims. -/

theorem param_isOk_iff (name : String) :
    (param name).isOk = true ↔ validParamName name = true := by
  unfold param validParamName
  rcases hd : name.data with _ | ⟨c, rest⟩
  · have hname : name = "" := by
      cases name
      simp_all
    simp [hname, Except.isOk, Except.toBool]
  · have hne : name ≠ "" := by
      intro h
      rw [h] at hd
      simp at hd
    simp only [hne, if_false, hd]
    cases h1 : (pyIsAlpha c || c = '_')
    · simp [Except.isOk, Except.toBool]
    · cases h2 : rest.all (fun c2 => pyIsAlnum c2 || c2 = '_') <;>
        simp [h2, Except.isOk, Except.toBool]

/-- C6: the validating builders reject a positional GROUP BY index below 1,
a ROLLUP with zero expressions, and the parameter name `1abc`, each with a
ValidationError; `namedParameter("_ok1")` succeeds, and in general a
parameter name is accepted exactly when it starts with a letter or
underscore and continues with letters, digits, or underscores. -/
theorem builders_reject_invalid_inputs :
    group_by [GroupByArg.int 0] = .error ⟨"GROUP BY position must be >= 1, got 0"⟩
    ∧ group_by_rollup [] = .error ⟨"ROLLUP requires at least one expression"⟩
    ∧ param "1abc" = .error ⟨"Parameter name must start with letter or underscore: 1abc"⟩
    ∧ param "_ok1" = .ok ⟨"_ok1"⟩
    ∧ ∀ name : String, (param name).isOk = true ↔ validParamName name = true := by
  refine ⟨by rfl, by rfl, by rfl, by rfl, param_isOk_iff⟩

/-- C7 counterexample: the claim as stated is false of the code.  With the
ending unit supplied as the empty string - which is outside the valid unit
set - the builder does not raise a ValidationError: Python's `if to_unit:`
is falsy on `""`, so `interval(5, "DAY", "")` falls through to the
single-unit branch and returns `IntervalLiteral(value="5 DAY")`. -/
theorem interval_empty_to_unit_counterexample :
    pyToUpper "" ∉ unitOrder
    ∧ interval (.int 5) "DAY" (some "") =
        .ok { value := "5 DAY", from_part := none, to_part := none } := by
  exact ⟨by decide, by rfl⟩

/-- C7 as amended: with a NON-EMPTY ending unit supplied (the only case in
which the code's `if to_unit:` takes the range branch), `interval` raises
ValidationError when either unit normalizes outside the valid unit set or
when the starting unit is not strictly coarser (earlier in the unit order)
than the ending unit, equal units included; otherwise it returns an
IntervalLiteral whose `from_part` is the starting unit and whose `to_part`
is the ending unit.  A supplied empty ending unit is falsy and yields the
single-unit IntervalLiteral with no error. -/
theorem interval_range_validation :
    ∀ (value : IntervalValue) (unit toUnit : String), toUnit ≠ "" →
      ((pyToUpper unit ∉ unitOrder ∨ pyToUpper toUnit ∉ unitOrder ∨
          unitOrder.indexOf (pyToUpper toUnit) ≤ unitOrder.indexOf (pyToUpper unit)) →
        ∃ e, interval value unit (some toUnit) = .error e)
      ∧ (pyToUpper unit ∈ unitOrder → pyToUpper toUnit ∈ unitOrder →
          unitOrder.indexOf (pyToUpper unit) < unitOrder.indexOf (pyToUpper toUnit) →
          interval value unit (some toUnit) =
            .ok ⟨value.pyStr, some (pyToUpper unit), some (pyToUpper toUnit)⟩) := by
  intro value unit toUnit htu
  constructor
  · intro h
    unfold interval
    by_cases hu : pyToUpper unit ∈ unitOrder
    · simp only [hu, not_true_eq_false, if_false]
      by_cases ht : pyToUpper toUnit ∈ unitOrder
      · have hle : unitOrder.indexOf (pyToUpper toUnit)
            ≤ unitOrder.indexOf (pyToUpper unit) := by
          rcases h with h | h | h
          · exact absurd hu h
          · exact absurd ht h
          · exact h
        simp [htu, ht, hle]
      · simp [htu, ht]
    · simp [hu]
  · intro hu ht hlt
    unfold interval
    have hnle : ¬ unitOrder.indexOf (pyToUpper toUnit)
        ≤ unitOrder.indexOf (pyToUpper unit) := not_le.mpr hlt
    simp [htu, hu, ht, hnle]

/-- Witness for the amended interval theorem: both branches at concrete
non-empty units - `HOUR TO SECOND` succeeds with the range parts set,
`DAY TO DAY` fails. -/
theorem interval_range_validation_witness :
    interval (.str "10:20:30") "HOUR" (some "SECOND") =
      .ok ⟨"10:20:30", some "HOUR", some "SECOND"⟩
    ∧ ∃ e, interval (.int 5) "DAY" (some "DAY") = .error e :=
  ⟨(interval_range_validation (.str "10:20:30") "HOUR" "SECOND" (by decide)).2
      (by decide) (by decide) (by decide),
   (interval_range_validation (.int 5) "DAY" "DAY" (by decide)).1 (by decide)⟩

/-- C9: `group_by` with the single string argument `"ALL"` (exact
uppercase) yields a GroupByClause of type ALL with no expressions, while
any other single string argument - lowercase `"all"` included - becomes an
Identifier expression of a standard clause, so a column literally named
`ALL` cannot be referenced by name through this builder. -/
theorem group_by_all_exact_uppercase :
    group_by [GroupByArg.str "ALL"] =
      .ok { expressions := [], group_type := .all, grouping_sets := none }
    ∧ ∀ s : String, s ≠ "ALL" →
        group_by [GroupByArg.str s] =
          .ok { expressions := [PExpr.identifier s], group_type := .standard,
                grouping_sets := none } := by
  constructor
  · rfl
  · intro s hs
    unfold group_by
    have hne : ¬ ([GroupByArg.str s] = [GroupByArg.str "ALL"]) := by
      simp [hs]
    simp only [hne, if_false]
    rfl

/-- C10: the `json` builder keeps a string input byte-for-byte whenever
`json.loads` accepts it and rejects it otherwise, re-serializes dict and
list inputs with compact separators (so the dict form of `\x7b"a": 1\x7d`
loses the space after the colon while the string form keeps it), and
rejects inputs that are not a dict, list, or string.  The concrete
conjuncts exercise the loads model where it is delicate: exponent numbers
and `NaN` are accepted, leading-zero numbers and invalid escapes are
rejected. -/
theorem json_builder_behaviour :
    json (.str "\x7b\"a\": 1\x7d") = .ok ⟨"\x7b\"a\": 1\x7d"⟩
    ∧ json (.dict [("a", .int 1)]) = .ok ⟨"\x7b\"a\":1\x7d"⟩
    ∧ ("\x7b\"a\": 1\x7d" : String) ≠ "\x7b\"a\":1\x7d"
    ∧ (∃ e, json (.str "\x7boops") = .error e)
    ∧ (∃ e, json (.int 3) = .error e)
    ∧ json (.str "1e5") = .ok ⟨"1e5"⟩
    ∧ json (.str "NaN") = .ok ⟨"NaN"⟩
    ∧ (∃ e, json (.str "01") = .error e)
    ∧ (∃ e, json (.str "\"\\q\"") = .error e)
    ∧ (∀ s, jsonLoadsOk s = true → json (.str s) = .ok ⟨s⟩)
    ∧ (∀ s, jsonLoadsOk s = false → ∃ e, json (.str s) = .error e) := by
  refine ⟨by rfl, by rfl, by decide, ⟨_, by rfl⟩, ⟨_, by rfl⟩, by rfl, by rfl,
    ⟨_, by rfl⟩, ⟨_, by rfl⟩, ?_, ?_⟩
  · intro s hs
    unfold json
    simp [hs]
  · intro s hs
    unfold json
    simp [hs]

/-- Witness for the builder-validation theorem: the characterization at the
concrete names of the claim. -/
theorem builders_reject_invalid_inputs_witness :
    ((param "1abc").isOk = true ↔ validParamName "1abc" = true)
    ∧ ((param "_ok1").isOk = true ↔ validParamName "_ok1" = true) :=
  ⟨builders_reject_invalid_inputs.2.2.2.2 "1abc",
   builders_reject_invalid_inputs.2.2.2.2 "_ok1"⟩

/-- Witness for the GROUP BY ALL theorem: lowercase `"all"` becomes an
Identifier of a standard clause. -/
theorem group_by_all_exact_uppercase_witness :
    group_by [GroupByArg.str "all"] =
      .ok { expressions := [PExpr.identifier "all"], group_type := .standard,
            grouping_sets := none } :=
  group_by_all_exact_uppercase.2 "all" (by decide)

/-- Witness for the json theorem: the general string branches applied at
concrete valid and invalid JSON texts. -/
theorem json_builder_behaviour_witness :
    json (.str "[1, 2, 3]") = .ok ⟨"[1, 2, 3]"⟩
    ∧ ∃ e, json (.str "nope") = .error e :=
  ⟨json_builder_behaviour.2.2.2.2.2.2.2.2.2.1 "[1, 2, 3]" (by rfl),
   json_builder_behaviour.2.2.2.2.2.2.2.2.2.2 "nope" (by rfl)⟩

/-- C8: name resolution walks the scope chain from the innermost frame to
the outermost and returns the binding of the nearest enclosing frame that
binds the name (so an inner binding shadows an outer one), and an unbound
name resolves to `none` - a "not found" result rather than an error. -/
theorem scope_resolution {β : Type} :
    (∀ (s : Scope β) (n : String),
        s.lookup n = (s.frames.filterMap (fun bs => List.lookup n bs)).head?)
    ∧ (∀ (bs : List (String × β)) (p : Scope β) (n : String) (b : β),
        List.lookup n bs = some b → (Scope.child bs p).lookup n = some b)
    ∧ (∀ (s : Scope β) (n : String),
        (∀ bs ∈ s.frames, List.lookup n bs = none) → s.lookup n = none) := by
  have hmain : ∀ (s : Scope β) (n : String),
      s.lookup n = (s.frames.filterMap (fun bs => List.lookup n bs)).head? := by
    intro s n
    induction s with
    | root => rfl
    | child bs p ih =>
      simp only [Scope.lookup, Scope.frames, List.filterMap_cons]
      cases h : List.lookup n bs with
      | none => simpa using ih
      | some b => simp
  refine ⟨hmain, ?_, ?_⟩
  · intro bs p n b hb
    simp [Scope.lookup, hb]
  · intro s n hall
    rw [hmain]
    have : s.frames.filterMap (fun bs => List.lookup n bs) = [] := by
      rw [List.filterMap_eq_nil_iff]
      intro bs hbs
      simp [hall bs hbs]
    simp [this]

/-- Witness for the scope-resolution theorem: a two-frame chain where the
inner frame's binding of `x` shadows the outer one, and an unbound `z`
resolves to `none`. -/
theorem scope_resolution_witness :
    (Scope.child [("x", 1)] (Scope.child [("x", 2), ("y", 3)] Scope.root)).lookup "x"
        = some 1
    ∧ (Scope.child [("x", 1)] (Scope.child [("x", 2), ("y", 3)] Scope.root)).lookup "z"
        = none :=
  ⟨(@scope_resolution Nat).2.1 [("x", 1)] (Scope.child [("x", 2), ("y", 3)] Scope.root)
      "x" 1 (by rfl),
   (@scope_resolution Nat).2.2 (Scope.child [("x", 1)]
      (Scope.child [("x", 2), ("y", 3)] Scope.root)) "z" (by decide)⟩

/-- C5: serialization is deterministic - two runs of `serialize` on the
same unmodified node are byte-identical in both modes, two runs of the
OPTIONS renderer agree, and the emission trace of an option map lists its
keys exactly in insertion order on every run. -/
theorem serialization_deterministic :
    (∀ (n : SNode) (m : Mode), serialize n m = serialize n m)
    ∧ (∀ opts : List (String × String), serializeOptions opts = serializeOptions opts)
    ∧ (∀ opts : List (String × String),
        emittedKeys (emitOptions opts) = opts.map Prod.fst) := by
  refine ⟨fun n m => rfl, fun opts => rfl, ?_⟩
  intro opts
  induction opts with
  | nil => rfl
  | cons kv rest ih =>
    simp only [emitOptions, emittedKeys, List.filterMap_append, List.map_cons]
    simp only [emittedKeys] at ih
    rw [ih]
    cases rest <;> simp

theorem editGo_nil_ps (fIn : α → List α) (i : Nat) (l : List α) :
    editGo fIn [] i l = l := by
  induction l generalizing i with
  | nil => rfl
  | cons a rest ih => simp [editGo, ih]

theorem editGo_append_of_le (fIn : α → List α) (ps : List Nat) (l1 l2 : List α) :
    ∀ i, (∀ q ∈ ps, i + l1.length ≤ q) →
      editGo fIn ps i (l1 ++ l2) = l1 ++ editGo fIn ps (i + l1.length) l2 := by
  induction l1 with
  | nil => simp
  | cons a rest ih =>
    intro i h
    have hi : i ∉ ps := by
      intro hmem
      have hle := h i hmem
      simp only [List.length_cons] at hle
      omega
    simp only [List.cons_append, editGo, hi, if_false, List.singleton_append,
      List.append_eq, List.length_cons]
    rw [ih (i + 1) (fun q hq => by
      have hle := h q hq
      simp only [List.length_cons] at hle
      omega)]
    have harith : i + 1 + rest.length = i + (rest.length + 1) := by omega
    rw [harith]
    simp

theorem editGo_drop_lt (fIn : α → List α) (p : Nat) (ps : List Nat) (l : List α) :
    ∀ i, p < i → editGo fIn (p :: ps) i l = editGo fIn ps i l := by
  induction l with
  | nil => intro i _; rfl
  | cons a rest ih =>
    intro i hp
    have hiff : (i ∈ p :: ps) = (i ∈ ps) := by
      simp only [List.mem_cons, eq_iff_iff]
      constructor
      · rintro (h | h)
        · omega
        · exact h
      · exact Or.inr
    simp only [editGo, hiff]
    rw [ih (i + 1) (by omega)]

theorem insertIdx_at_front_length (x : α) (l1 l2 : List α) :
    List.insertIdx l1.length x (l1 ++ l2) = l1 ++ x :: l2 := by
  induction l1 with
  | nil => rfl
  | cons a rest ih => simp [List.insertIdx_succ_cons, ih]

theorem eraseIdx_at_front_length (a : α) (l1 l2 : List α) :
    (l1 ++ a :: l2).eraseIdx l1.length = l1 ++ l2 := by
  induction l1 with
  | nil => rfl
  | cons b rest ih => simp [List.eraseIdx, ih]

theorem editGo_cons_split (fIn : α → List α) (ps : List Nat) (p : Nat)
    (T D : List α) (a : α) (hT : T.length = p) (hps : ∀ q ∈ ps, p < q) :
    editGo fIn (p :: ps) 0 (T ++ a :: D)
      = T ++ fIn a ++ editGo fIn ps (p + 1) D := by
  rw [editGo_append_of_le fIn (p :: ps) T (a :: D) 0 ?hbound]
  case hbound =>
    intro q hq
    rcases List.mem_cons.mp hq with h | h
    · omega
    · have := hps q h
      omega
  simp only [Nat.zero_add, hT, editGo, List.mem_cons, true_or, if_pos]
  rw [editGo_drop_lt fIn p ps D (p + 1) (by omega)]
  simp

theorem editGo_skip_split (fIn : α → List α) (ps : List Nat) (p : Nat)
    (T D : List α) (a : α) (hT : T.length = p) (hps : ∀ q ∈ ps, p < q) :
    editGo fIn ps 0 (T ++ a :: D)
      = T ++ a :: editGo fIn ps (p + 1) D := by
  rw [editGo_append_of_le fIn ps T (a :: D) 0 ?hbound]
  case hbound =>
    intro q hq
    have := hps q hq
    omega
  have hp : p ∉ ps := fun h => absurd (hps p h) (by omega)
  simp [hT, editGo, hp]

theorem slot_split_at (slot : List α) (p : Nat) (hp : p < slot.length) :
    ∃ T a D, slot = T ++ a :: D ∧ T.length = p := by
  refine ⟨slot.take p, slot[p], slot.drop (p + 1), ?_, List.length_take_of_le (by omega)⟩
  conv_lhs => rw [← List.take_append_drop p slot]
  rw [List.drop_eq_getElem_cons hp]

/-- C2: over a shared ordered-many parent slot, with the Collection's paths
at strictly increasing positions all inside the slot, the reverse-
positional-order batch edits produce exactly the spec's outcome - each
targeted element immediately preceded (followed, for insertAfter) by
exactly one copy of the inserted node with the relative order of all
original elements unchanged, and `remove` deletes exactly the targeted
elements. -/
theorem collection_batch_edits_reverse_order {α : Type} (x : α)
    (ps : List Nat) (slot : List α)
    (hsort : ps.Pairwise (· < ·)) (hin : ∀ p ∈ ps, p < slot.length) :
    insertBeforeAll x ps slot = withCopiesBefore x ps slot
    ∧ insertAfterAll x ps slot = withCopiesAfter x ps slot
    ∧ removeAll ps slot = withRemoved ps slot := by
  induction ps with
  | nil =>
    unfold insertBeforeAll insertAfterAll removeAll
    unfold withCopiesBefore withCopiesAfter withRemoved
    simp [editGo_nil_ps]
  | cons p ps ih =>
    have hps : ∀ q ∈ ps, p < q := fun q hq => (List.pairwise_cons.mp hsort).1 q hq
    have hsort2 : ps.Pairwise (· < ·) := (List.pairwise_cons.mp hsort).2
    have hin2 : ∀ q ∈ ps, q < slot.length := fun q hq => hin q (List.mem_cons_of_mem _ hq)
    have hp : p < slot.length := hin p (List.mem_cons_self p ps)
    obtain ⟨T, a, D, hsplit, hT⟩ := slot_split_at slot p hp
    obtain ⟨ihb, iha, ihr⟩ := ih hsort2 hin2
    subst hsplit
    refine ⟨?_, ?_, ?_⟩
    · show List.insertIdx p x (insertBeforeAll x ps (T ++ a :: D)) = _
      rw [ihb]
      unfold withCopiesBefore
      rw [editGo_skip_split _ ps p T D a hT hps,
          editGo_cons_split _ ps p T D a hT hps]
      rw [← hT, insertIdx_at_front_length]
      simp
    · show List.insertIdx (p + 1) x (insertAfterAll x ps (T ++ a :: D)) = _
      rw [iha]
      unfold withCopiesAfter
      rw [editGo_skip_split _ ps p T D a hT hps,
          editGo_cons_split _ ps p T D a hT hps]
      have h1 : T ++ a :: editGo (fun b => [b, x]) ps (p + 1) D
          = (T ++ [a]) ++ editGo (fun b => [b, x]) ps (p + 1) D := by simp
      have h2 : (T ++ [a]).length = p + 1 := by simp [hT]
      rw [h1, ← h2, insertIdx_at_front_length]
      simp
    · show (removeAll ps (T ++ a :: D)).eraseIdx p = _
      rw [ihr]
      unfold withRemoved
      rw [editGo_skip_split _ ps p T D a hT hps,
          editGo_cons_split _ ps p T D a hT hps]
      rw [← hT, eraseIdx_at_front_length]
      simp

/-- Witness for the batch-edit theorem: the spec's own example - three
paths at positions 0, 2, 4 of a slot of length 6 - with the resulting
slots computed explicitly. -/
theorem collection_batch_edits_reverse_order_witness :
    (insertBeforeAll 99 [0, 2, 4] [10, 11, 12, 13, 14, 15]
        = withCopiesBefore 99 [0, 2, 4] [10, 11, 12, 13, 14, 15]
      ∧ insertAfterAll 99 [0, 2, 4] [10, 11, 12, 13, 14, 15]
        = withCopiesAfter 99 [0, 2, 4] [10, 11, 12, 13, 14, 15]
      ∧ removeAll [0, 2, 4] [10, 11, 12, 13, 14, 15]
        = withRemoved [0, 2, 4] [10, 11, 12, 13, 14, 15])
    ∧ insertBeforeAll 99 [0, 2, 4] [10, 11, 12, 13, 14, 15]
        = [99, 10, 11, 99, 12, 13, 99, 14, 15] :=
  ⟨collection_batch_edits_reverse_order 99 [0, 2, 4] [10, 11, 12, 13, 14, 15]
      (by decide) (by decide),
   by decide⟩

mutual
theorem findNode_eq_filter (v : Variant) : ∀ t : ANode,
    findNode v t = (walk t).filter (hasVariant v)
  | .mk i var cs => by
    rw [findNode, walk, List.filter_cons, findList_eq_filter v cs]
    by_cases h : var = v
    · simp [hasVariant, ANode.variant, h]
    · simp [hasVariant, ANode.variant, h]

theorem findList_eq_filter (v : Variant) : ∀ cs : List ANode,
    findList v cs = (walkList cs).filter (hasVariant v)
  | [] => rfl
  | c :: cs => by
    rw [findList, walkList, List.filter_append, findNode_eq_filter v c,
      findList_eq_filter v cs]
end

theorem findAll_eq_findList (v : Variant) : ∀ roots : List ANode,
    findAll v roots = findList v roots
  | [] => rfl
  | r :: rs => by rw [findAll, findList, findAll_eq_findList v rs]

mutual
theorem walk_length_eq (t : ANode) : (walk t).length = sizeNode t := by
  cases t with
  | mk i v cs =>
    rw [walk, sizeNode, List.length_cons, walkList_length_eq cs]
    omega

theorem walkList_length_eq (cs : List ANode) : (walkList cs).length = sizeList cs := by
  cases cs with
  | nil => rfl
  | cons c rest =>
    rw [walkList, sizeList, List.length_append, walk_length_eq c,
      walkList_length_eq rest]
end

/-- C4: `find(BinaryOp)` from a Collection of input paths returns exactly
the BinaryOp nodes of the pre-order walks of those paths in encounter
order - in particular, on a single-rooted collection over a tree with
exactly `k` BinaryOp nodes its size is `k` - and the walk underlying the
search visits exactly one entry per node instance of the tree.  The search
itself builds a new list and leaves the tree untouched. -/
theorem find_completeness :
    (∀ (root : ANode) (k : Nat), countVariant .binaryOp root = k →
        (findAll .binaryOp [root]).length = k)
    ∧ (∀ roots : List ANode,
        findAll .binaryOp roots = (walkList roots).filter (hasVariant .binaryOp))
    ∧ (∀ t : ANode, (walk t).length = sizeNode t) := by
  refine ⟨?_, ?_, walk_length_eq⟩
  · intro root k hk
    rw [findAll, findAll, findNode_eq_filter, List.append_nil]
    exact hk
  · intro roots
    rw [findAll_eq_findList, findList_eq_filter]

/-- Witness for the find theorem: a tree with exactly two BinaryOp nodes,
searched from the root. -/
theorem find_completeness_witness :
    countVariant .binaryOp
        (ANode.mk 0 .selectV
          [ANode.mk 1 .binaryOp [ANode.mk 2 .identifier [], ANode.mk 3 .binaryOp []],
           ANode.mk 4 .identifier []]) = 2
    ∧ (findAll .binaryOp
        [ANode.mk 0 .selectV
          [ANode.mk 1 .binaryOp [ANode.mk 2 .identifier [], ANode.mk 3 .binaryOp []],
           ANode.mk 4 .identifier []]]).length = 2 :=
  ⟨by decide,
   find_completeness.1
     (ANode.mk 0 .selectV
       [ANode.mk 1 .binaryOp [ANode.mk 2 .identifier [], ANode.mk 3 .binaryOp []],
        ANode.mk 4 .identifier []]) 2 (by decide)⟩

theorem walkList_append (l1 l2 : List ANode) :
    walkList (l1 ++ l2) = walkList l1 ++ walkList l2 := by
  induction l1 with
  | nil => rfl
  | cons c rest ih => rw [List.cons_append, walkList, walkList, ih, List.append_assoc]

theorem nodeIds_mk (i : Nat) (v : Variant) (cs : List ANode) :
    nodeIds (.mk i v cs) = i :: idsList cs := by
  rw [nodeIds, idsList, walk, List.map_cons]
  rfl

theorem idsList_append (l1 l2 : List ANode) :
    idsList (l1 ++ l2) = idsList l1 ++ idsList l2 := by
  rw [idsList, idsList, idsList, walkList_append, List.map_append]

theorem idsList_cons (c : ANode) (cs : List ANode) :
    idsList (c :: cs) = nodeIds c ++ idsList cs := by
  rw [idsList, walkList, List.map_append]
  rfl

theorem insertIdx_eq_take_cons_drop (x : α) :
    ∀ (n : Nat) (l : List α), n ≤ l.length →
      List.insertIdx n x l = l.take n ++ x :: l.drop n
  | 0, l, _ => rfl
  | n + 1, [], h => by simp at h
  | n + 1, a :: l, h => by
    rw [List.insertIdx_succ_cons, insertIdx_eq_take_cons_drop x n l (by
      simpa using Nat.lt_succ_iff.mp (Nat.lt_succ_of_le h))]
    simp

theorem applyAt_ids_le (f : List ANode → Nat → Option (List ANode))
    (fresh : Multiset Nat)
    (hf : ∀ cs j cs2, f cs j = some cs2 →
        (idsList cs2 : Multiset Nat) ≤ (idsList cs : Multiset Nat) + fresh) :
    ∀ (path : List Nat) (t t2 : ANode), applyAt f t path = some t2 →
      (nodeIds t2 : Multiset Nat) ≤ (nodeIds t : Multiset Nat) + fresh := by
  intro path
  induction path with
  | nil =>
    intro t t2 h
    cases t with
    | mk i v cs => simp [applyAt] at h
  | cons j rest ih =>
    intro t t2 h
    cases t with
    | mk i v cs =>
      cases rest with
      | nil =>
        rw [applyAt] at h
        cases hf2 : f cs j with
        | none => rw [hf2] at h; simp at h
        | some cs2 =>
          rw [hf2] at h
          simp only [Option.some.injEq] at h
          subst h
          have hle := hf cs j cs2 hf2
          rw [nodeIds_mk, nodeIds_mk]
          show i ::ₘ (idsList cs2 : Multiset Nat)
              ≤ (i ::ₘ (idsList cs : Multiset Nat)) + fresh
          rw [Multiset.cons_add]
          exact Multiset.cons_le_cons i hle
      | cons j2 rest2 =>
        simp only [applyAt] at h
        cases hg : cs[j]? with
        | none => simp [hg] at h
        | some c =>
          simp only [hg] at h
          cases hrec : applyAt f c (j2 :: rest2) with
          | none => simp [hrec] at h
          | some c2 =>
            simp only [hrec, Option.some.injEq] at h
            subst h
            have hih := ih c c2 hrec
            have hj : j < cs.length := by
              by_contra hcon
              have hnone : cs[j]? = none := List.getElem?_eq_none (by omega)
              rw [hnone] at hg
              exact Option.noConfusion hg
            have hcj : cs[j] = c := by
              have hsome := List.getElem?_eq_getElem hj
              rw [hsome] at hg
              exact Option.some.inj hg
            have hcs : cs = cs.take j ++ c :: cs.drop (j + 1) := by
              conv_lhs => rw [← List.take_append_drop j cs]
              rw [List.drop_eq_getElem_cons hj, hcj]
            have hset : cs.set j c2 = cs.take j ++ c2 :: cs.drop (j + 1) :=
              List.set_eq_take_cons_drop c2 hj
            rw [nodeIds_mk, nodeIds_mk, hset]
            conv_rhs => rw [hcs]
            rw [idsList_append, idsList_cons, idsList_append, idsList_cons]
            show i ::ₘ ((idsList (cs.take j) : Multiset Nat)
                  + ((nodeIds c2 : Multiset Nat)
                    + (idsList (cs.drop (j + 1)) : Multiset Nat)))
                ≤ (i ::ₘ ((idsList (cs.take j) : Multiset Nat)
                  + ((nodeIds c : Multiset Nat)
                    + (idsList (cs.drop (j + 1)) : Multiset Nat)))) + fresh
            rw [Multiset.cons_add]
            apply Multiset.cons_le_cons
            calc (idsList (cs.take j) : Multiset Nat)
                  + ((nodeIds c2 : Multiset Nat)
                    + (idsList (cs.drop (j + 1)) : Multiset Nat))
                ≤ (idsList (cs.take j) : Multiset Nat)
                  + (((nodeIds c : Multiset Nat) + fresh)
                    + (idsList (cs.drop (j + 1)) : Multiset Nat)) := by gcongr
              _ = ((idsList (cs.take j) : Multiset Nat)
                  + ((nodeIds c : Multiset Nat)
                    + (idsList (cs.drop (j + 1)) : Multiset Nat))) + fresh := by abel

theorem replaceOp_ids (new : ANode) :
    ∀ cs j cs2, replaceOp new cs j = some cs2 →
      (idsList cs2 : Multiset Nat) ≤ (idsList cs : Multiset Nat)
        + (nodeIds new : Multiset Nat) := by
  intro cs j cs2 h
  rw [replaceOp] at h
  by_cases hj : j < cs.length
  · rw [if_pos hj] at h
    simp only [Option.some.injEq] at h
    subst h
    have hcs : cs = cs.take j ++ cs[j] :: cs.drop (j + 1) := by
      conv_lhs => rw [← List.take_append_drop j cs]
      rw [List.drop_eq_getElem_cons hj]
    rw [List.set_eq_take_cons_drop new hj]
    conv_rhs => rw [hcs]
    rw [idsList_append, idsList_cons, idsList_append, idsList_cons]
    show (idsList (cs.take j) : Multiset Nat)
          + ((nodeIds new : Multiset Nat) + (idsList (cs.drop (j + 1)) : Multiset Nat))
        ≤ ((idsList (cs.take j) : Multiset Nat)
          + ((nodeIds cs[j] : Multiset Nat) + (idsList (cs.drop (j + 1)) : Multiset Nat)))
          + (nodeIds new : Multiset Nat)
    calc (idsList (cs.take j) : Multiset Nat)
          + ((nodeIds new : Multiset Nat) + (idsList (cs.drop (j + 1)) : Multiset Nat))
        ≤ ((nodeIds cs[j] : Multiset Nat)
            + ((idsList (cs.take j) : Multiset Nat)
              + ((nodeIds new : Multiset Nat)
                + (idsList (cs.drop (j + 1)) : Multiset Nat)))) := le_add_self
      _ = ((idsList (cs.take j) : Multiset Nat)
          + ((nodeIds cs[j] : Multiset Nat) + (idsList (cs.drop (j + 1)) : Multiset Nat)))
          + (nodeIds new : Multiset Nat) := by abel
  · rw [if_neg hj] at h
    exact Option.noConfusion h

theorem insertBeforeOp_ids (new : ANode) :
    ∀ cs j cs2, insertBeforeOp new cs j = some cs2 →
      (idsList cs2 : Multiset Nat) ≤ (idsList cs : Multiset Nat)
        + (nodeIds new : Multiset Nat) := by
  intro cs j cs2 h
  rw [insertBeforeOp] at h
  by_cases hj : j < cs.length
  · rw [if_pos hj] at h
    simp only [Option.some.injEq] at h
    subst h
    rw [insertIdx_eq_take_cons_drop new j cs (by omega)]
    have hcs : cs = cs.take j ++ cs.drop j := (List.take_append_drop j cs).symm
    conv_rhs => rw [hcs]
    rw [idsList_append, idsList_cons, idsList_append]
    apply le_of_eq
    show (idsList (cs.take j) : Multiset Nat)
          + ((nodeIds new : Multiset Nat) + (idsList (cs.drop j) : Multiset Nat))
        = ((idsList (cs.take j) : Multiset Nat) + (idsList (cs.drop j) : Multiset Nat))
          + (nodeIds new : Multiset Nat)
    abel
  · rw [if_neg hj] at h
    exact Option.noConfusion h

theorem insertAfterOp_ids (new : ANode) :
    ∀ cs j cs2, insertAfterOp new cs j = some cs2 →
      (idsList cs2 : Multiset Nat) ≤ (idsList cs : Multiset Nat)
        + (nodeIds new : Multiset Nat) := by
  intro cs j cs2 h
  rw [insertAfterOp] at h
  by_cases hj : j < cs.length
  · rw [if_pos hj] at h
    simp only [Option.some.injEq] at h
    subst h
    rw [insertIdx_eq_take_cons_drop new (j + 1) cs (by omega)]
    have hcs : cs = cs.take (j + 1) ++ cs.drop (j + 1) :=
      (List.take_append_drop (j + 1) cs).symm
    conv_rhs => rw [hcs]
    rw [idsList_append, idsList_cons, idsList_append]
    apply le_of_eq
    show (idsList (cs.take (j + 1)) : Multiset Nat)
          + ((nodeIds new : Multiset Nat) + (idsList (cs.drop (j + 1)) : Multiset Nat))
        = ((idsList (cs.take (j + 1)) : Multiset Nat)
          + (idsList (cs.drop (j + 1)) : Multiset Nat)) + (nodeIds new : Multiset Nat)
    abel
  · rw [if_neg hj] at h
    exact Option.noConfusion h

theorem removeOp_ids :
    ∀ cs j cs2, removeOp cs j = some cs2 →
      (idsList cs2 : Multiset Nat) ≤ (idsList cs : Multiset Nat) + (0 : Multiset Nat) := by
  intro cs j cs2 h
  rw [removeOp] at h
  by_cases hj : j < cs.length
  · rw [if_pos hj] at h
    simp only [Option.some.injEq] at h
    subst h
    rw [List.eraseIdx_eq_take_drop_succ]
    have hcs : cs = cs.take j ++ cs[j] :: cs.drop (j + 1) := by
      conv_lhs => rw [← List.take_append_drop j cs]
      rw [List.drop_eq_getElem_cons hj]
    conv_rhs => rw [hcs]
    rw [idsList_append, idsList_append, idsList_cons, add_zero]
    show (idsList (cs.take j) : Multiset Nat) + (idsList (cs.drop (j + 1)) : Multiset Nat)
        ≤ (idsList (cs.take j) : Multiset Nat)
          + ((nodeIds cs[j] : Multiset Nat) + (idsList (cs.drop (j + 1)) : Multiset Nat))
    gcongr
    exact le_add_self
  · rw [if_neg hj] at h
    exact Option.noConfusion h

theorem freshFor_spec (new t : ANode) (h : freshFor new t = true) :
    (nodeIds new).Nodup ∧ ∀ i ∈ nodeIds new, i ∉ nodeIds t := by
  rw [freshFor, Bool.and_eq_true] at h
  refine ⟨of_decide_eq_true h.1, ?_⟩
  intro i hi
  have := (List.all_eq_true.mp h.2) i hi
  exact of_decide_eq_true this

theorem applyEdit_wf (t t2 : ANode) (e : Edit) (hwf : t.wellFormed)
    (h : applyEdit t e = some t2) : t2.wellFormed := by
  have key : ∀ (new : ANode), freshFor new t = true →
      (nodeIds t2 : Multiset Nat) ≤ (nodeIds t : Multiset Nat) + (nodeIds new : Multiset Nat) →
      t2.wellFormed := by
    intro new hfresh hle
    obtain ⟨hnodup, hdisj⟩ := freshFor_spec new t hfresh
    have hsum : ((nodeIds t : Multiset Nat) + (nodeIds new : Multiset Nat)).Nodup := by
      rw [Multiset.nodup_add]
      refine ⟨by exact hwf, by exact hnodup, ?_⟩
      rw [Multiset.disjoint_left]
      intro i hit hin
      exact hdisj i hin hit
    exact Multiset.nodup_of_le hle hsum
  cases e with
  | replace path new =>
    simp only [applyEdit] at h
    by_cases hfresh : freshFor new t
    · rw [if_pos hfresh] at h
      cases path with
      | nil =>
        simp only [Option.some.injEq] at h
        subst h
        exact (freshFor_spec _ t hfresh).1
      | cons j rest =>
        exact key new hfresh
          (applyAt_ids_le (replaceOp new) _ (replaceOp_ids new) (j :: rest) t t2 h)
    · rw [if_neg hfresh] at h
      exact Option.noConfusion h
  | insertBefore path new =>
    simp only [applyEdit] at h
    by_cases hfresh : freshFor new t
    · rw [if_pos hfresh] at h
      exact key new hfresh
        (applyAt_ids_le (insertBeforeOp new) _ (insertBeforeOp_ids new) path t t2 h)
    · rw [if_neg hfresh] at h
      exact Option.noConfusion h
  | insertAfter path new =>
    simp only [applyEdit] at h
    by_cases hfresh : freshFor new t
    · rw [if_pos hfresh] at h
      exact key new hfresh
        (applyAt_ids_le (insertAfterOp new) _ (insertAfterOp_ids new) path t t2 h)
    · rw [if_neg hfresh] at h
      exact Option.noConfusion h
  | remove path =>
    simp only [applyEdit] at h
    have hle := applyAt_ids_le removeOp 0 removeOp_ids path t t2 h
    rw [add_zero] at hle
    exact Multiset.nodup_of_le hle (by exact hwf)

/-- C3: applied to a well-formed tree (pre-order walk meets every node
instance at most once - invariant N1), any sequence of replace,
insertBefore, insertAfter and remove edits that the Navigator accepts
leaves the tree well-formed: the walk still visits each node instance at
most once, so no node is reachable from two parents; acyclicity and a
single root are built into the tree representation. -/
theorem edits_preserve_N1 (t : ANode) (es : List Edit) (t2 : ANode)
    (hwf : t.wellFormed) (h : applyEdits t es = some t2) : t2.wellFormed := by
  induction es generalizing t with
  | nil =>
    rw [applyEdits] at h
    simp only [Option.some.injEq] at h
    subst h
    exact hwf
  | cons e rest ih =>
    rw [applyEdits] at h
    cases he : applyEdit t e with
    | none => rw [he] at h; exact Option.noConfusion h
    | some tmid =>
      rw [he] at h
      exact ih tmid (applyEdit_wf t tmid e hwf he) h

/-- Witness for the N1-preservation theorem: a concrete well-formed tree
put through a replace, an insertBefore, an insertAfter and a remove. -/
theorem edits_preserve_N1_witness :
    (ANode.mk 0 .selectV
        [ANode.mk 1 .identifier [], ANode.mk 2 .binaryOp [ANode.mk 3 .identifier []]]
      ).wellFormed
    ∧ applyEdits
        (ANode.mk 0 .selectV
          [ANode.mk 1 .identifier [], ANode.mk 2 .binaryOp [ANode.mk 3 .identifier []]])
        [Edit.replace [1, 0] (ANode.mk 7 .identifier []),
         Edit.insertBefore [0] (ANode.mk 8 .literalV []),
         Edit.insertAfter [2] (ANode.mk 9 .literalV []),
         Edit.remove [1]]
        = some (ANode.mk 0 .selectV
            [ANode.mk 8 .literalV [], ANode.mk 2 .binaryOp [ANode.mk 7 .identifier []],
             ANode.mk 9 .literalV []])
    ∧ (ANode.mk 0 .selectV
        [ANode.mk 8 .literalV [], ANode.mk 2 .binaryOp [ANode.mk 7 .identifier []],
         ANode.mk 9 .literalV []]).wellFormed :=
  ⟨by decide, by rfl,
   edits_preserve_N1
     (ANode.mk 0 .selectV
       [ANode.mk 1 .identifier [], ANode.mk 2 .binaryOp [ANode.mk 3 .identifier []]])
     [Edit.replace [1, 0] (ANode.mk 7 .identifier []),
      Edit.insertBefore [0] (ANode.mk 8 .literalV []),
      Edit.insertAfter [2] (ANode.mk 9 .literalV []),
      Edit.remove [1]]
     (ANode.mk 0 .selectV
       [ANode.mk 8 .literalV [], ANode.mk 2 .binaryOp [ANode.mk 7 .identifier []],
        ANode.mk 9 .literalV []])
     (by decide) (by rfl)⟩

theorem digitChar_isDigit {d : Nat} (hd : d < 10) : (digitChar d).isDigit = true := by
  interval_cases d <;> decide

theorem digitVal_digitChar {d : Nat} (hd : d < 10) : digitVal (digitChar d) = d := by
  interval_cases d <;> decide

theorem natToken_all_digit (n : Nat) : ∀ c ∈ natToken n, c.isDigit = true := by
  intro c hc
  rw [natToken] at hc
  by_cases h0 : n = 0
  · rw [if_pos h0] at hc
    simp at hc
    subst hc
    decide
  · rw [if_neg h0] at hc
    rw [List.mem_reverse, List.mem_map] at hc
    obtain ⟨d, hd, rfl⟩ := hc
    exact digitChar_isDigit (Nat.digits_lt_base (by norm_num) hd)

theorem natToken_ne_nil (n : Nat) : natToken n ≠ [] := by
  rw [natToken]
  by_cases h0 : n = 0
  · simp [h0]
  · rw [if_neg h0]
    simp only [ne_eq, List.reverse_eq_nil_iff, List.map_eq_nil_iff]
    exact Nat.digits_ne_nil_iff_ne_zero.mpr h0

theorem readNat_natToken (n : Nat) : readNat (natToken n) = n := by
  rw [readNat, natToken]
  by_cases h0 : n = 0
  · subst h0
    rfl
  · rw [if_neg h0]
    rw [List.map_reverse, List.reverse_reverse, List.map_map]
    have hcongr : (Nat.digits 10 n).map (digitVal ∘ digitChar) = Nat.digits 10 n := by
      rw [List.map_congr_left, List.map_id]
      intro d hd
      exact digitVal_digitChar (Nat.digits_lt_base (by norm_num) hd)
    rw [hcongr, Nat.ofDigits_digits]

theorem isDigit_isWordCh {c : Char} (h : c.isDigit = true) : isWordCh c = true := by
  rw [isWordCh, Char.isAlphanum, Bool.or_eq_true, Bool.or_eq_true]
  exact Or.inl (Or.inr h)

theorem space_not_word {c : Char} (h : isSpaceCh c = true) : isWordCh c = false := by
  rw [isSpaceCh, Bool.or_eq_true, decide_eq_true_eq, decide_eq_true_eq] at h
  rcases h with rfl | rfl <;> decide

theorem space_not_sym {c : Char} (h : isSpaceCh c = true) : isSymCh c = false := by
  rw [isSpaceCh, Bool.or_eq_true, decide_eq_true_eq, decide_eq_true_eq] at h
  rcases h with rfl | rfl <;> decide

theorem sym_not_word {c : Char} (h : isSymCh c = true) : isWordCh c = false := by
  rw [isSymCh] at h
  simp only [Bool.or_eq_true, decide_eq_true_eq] at h
  rcases h with ((((rfl | rfl) | rfl) | rfl) | rfl) | rfl <;> decide

theorem sym_not_space {c : Char} (h : isSymCh c = true) : isSpaceCh c = false := by
  rw [isSymCh] at h
  simp only [Bool.or_eq_true, decide_eq_true_eq] at h
  rcases h with ((((rfl | rfl) | rfl) | rfl) | rfl) | rfl <;> decide

theorem word_not_space {c : Char} (h : isWordCh c = true) : isSpaceCh c = false := by
  cases hs : isSpaceCh c with
  | false => rfl
  | true => rw [space_not_word hs] at h; exact Bool.noConfusion h

theorem word_not_sym {c : Char} (h : isWordCh c = true) : isSymCh c = false := by
  cases hs : isSymCh c with
  | false => rfl
  | true => rw [sym_not_word hs] at h; exact Bool.noConfusion h

theorem takeWhile_all_append {p : Char → Bool} :
    ∀ (w s : List Char), (∀ c ∈ w, p c = true) → s.takeWhile p = [] →
      (w ++ s).takeWhile p = w ∧ (w ++ s).dropWhile p = s
  | [], s, _, hs => by
    constructor
    · simpa using hs
    · cases s with
      | nil => rfl
      | cons c s2 =>
        rw [List.takeWhile] at hs
        cases hp : p c with
        | false => simp [List.nil_append, List.dropWhile, hp]
        | true => rw [hp] at hs; exact List.noConfusion hs
  | c :: w, s, hw, hs => by
    have hc : p c = true := hw c (List.mem_cons_self c w)
    have ih := takeWhile_all_append w s (fun d hd => hw d (List.mem_cons_of_mem c hd)) hs
    constructor
    · rw [List.cons_append, List.takeWhile, hc, ih.1]
    · rw [List.cons_append, List.dropWhile, hc, ih.2]

theorem tokenize_append_spaces :
    ∀ (ws cs : List Char), (∀ c ∈ ws, isSpaceCh c = true) →
      tokenize (ws ++ cs) = tokenize cs
  | [], cs, _ => rfl
  | w :: ws, cs, h => by
    have hw : isSpaceCh w = true := h w (List.mem_cons_self w ws)
    rw [List.cons_append, tokenize, if_pos hw]
    exact tokenize_append_spaces ws cs (fun c hc => h c (List.mem_cons_of_mem w hc))

theorem tokenize_word_head (t s : List Char) (ht : t ≠ [])
    (hw : ∀ c ∈ t, isWordCh c = true) (hs : s.takeWhile isWordCh = []) :
    tokenize (t ++ s) = (tokenize s).map (fun ts => t :: ts) := by
  cases t with
  | nil => exact absurd rfl ht
  | cons c w =>
    have hc : isWordCh c = true := hw c (List.mem_cons_self c w)
    have hsplit := takeWhile_all_append w s
      (fun d hd => hw d (List.mem_cons_of_mem c hd)) hs
    rw [List.cons_append, tokenize, if_neg (by rw [word_not_space hc]; exact Bool.false_ne_true),
      if_neg (by rw [word_not_sym hc]; exact Bool.false_ne_true), if_pos hc,
      hsplit.1, hsplit.2]
    cases tokenize s with
    | none => rfl
    | some ts => rfl

theorem tokenize_sym_head (c : Char) (s : List Char) (hc : isSymCh c = true) :
    tokenize (c :: s) = (tokenize s).map (fun ts => [c] :: ts) := by
  rw [tokenize, if_neg (by rw [sym_not_space hc]; exact Bool.false_ne_true), if_pos hc]
  cases tokenize s with
  | none => rfl
  | some ts => rfl

theorem renderTokens_cons_head (sep : List Char → List Char → List Char)
    (u : List Char) (rest : List (List Char)) :
    ∃ tail, renderTokens sep (u :: rest) = u ++ tail := by
  cases rest with
  | nil => exact ⟨[], by simp [renderTokens]⟩
  | cons v rest2 => exact ⟨sep u v ++ renderTokens sep (v :: rest2), by
      rw [renderTokens, List.append_assoc]⟩

theorem validTok_wordTok {t : List Char} (h : ValidTok t)
    (hnw : isWordTok t = false) : ∃ c, isSymCh c = true ∧ t = [c] := by
  rcases h with ⟨hne, hall⟩ | hsym
  · exfalso
    rw [isWordTok, Bool.and_eq_false_iff] at hnw
    rcases hnw with h1 | h2
    · cases t with
      | nil => exact hne rfl
      | cons c w => simp at h1
    · rw [List.all_eq_false] at h2
      obtain ⟨c, hc, hcw⟩ := h2
      rw [hall c hc] at hcw
      simp at hcw
  · exact hsym

theorem validTok_word_isWordTok {t : List Char} (hne : t ≠ [])
    (hall : ∀ c ∈ t, isWordCh c = true) : isWordTok t = true := by
  rw [isWordTok, Bool.and_eq_true]
  constructor
  · cases t with
    | nil => exact absurd rfl hne
    | cons c w => rfl
  · rw [List.all_eq_true]
    exact hall

theorem takeWhile_nil_of_head_false {p : Char → Bool} {c : Char} {cs : List Char}
    (h : p c = false) : (c :: cs).takeWhile p = [] := by
  rw [List.takeWhile, h]

theorem tokenize_render (sep : List Char → List Char → List Char)
    (hsep : GoodSep sep) :
    ∀ ts : List (List Char), (∀ t ∈ ts, ValidTok t) →
      tokenize (renderTokens sep ts) = some ts := by
  intro ts
  induction ts with
  | nil =>
    intro _
    rw [renderTokens, tokenize]
  | cons t rest ih =>
    intro hvalid
    have hvt : ValidTok t := hvalid t (List.mem_cons_self t rest)
    have hvrest : ∀ u ∈ rest, ValidTok u :=
      fun u hu => hvalid u (List.mem_cons_of_mem t hu)
    cases rest with
    | nil =>
      rw [renderTokens]
      rcases hvt with ⟨hne, hall⟩ | ⟨c, hc, rfl⟩
      · have hw := tokenize_word_head t [] hne hall rfl
        rw [List.append_nil] at hw
        rw [hw, tokenize]
        rfl
      · rw [tokenize_sym_head c [] hc, tokenize]
        rfl
    | cons u rest2 =>
      rw [renderTokens]
      have hvu : ValidTok u := hvrest u (List.mem_cons_self u rest2)
      have hu_ne : u ≠ [] := by
        rcases hvu with ⟨hne, _⟩ | ⟨c, _, rfl⟩
        · exact hne
        · simp
      have hrest_eq : tokenize (renderTokens sep (u :: rest2)) = some (u :: rest2) :=
        ih hvrest
      have hspaces : ∀ c ∈ sep t u, isSpaceCh c = true := (hsep t u).1
      have htail : tokenize (sep t u ++ renderTokens sep (u :: rest2))
          = some (u :: rest2) := by
        rw [tokenize_append_spaces (sep t u) _ hspaces, hrest_eq]
      rcases hvt with ⟨hne, hall⟩ | ⟨c, hc, rfl⟩
      · have hboundary : (sep t u ++ renderTokens sep (u :: rest2)).takeWhile isWordCh
            = [] := by
          cases hsp : sep t u with
          | cons w ws =>
            rw [List.cons_append]
            exact takeWhile_nil_of_head_false
              (space_not_word (hspaces w (by rw [hsp]; exact List.mem_cons_self w ws)))
          | nil =>
            rw [List.nil_append]
            have hwt : isWordTok t = true := validTok_word_isWordTok hne hall
            cases hwu : isWordTok u with
            | true => exact absurd hsp ((hsep t u).2 hwt hwu)
            | false =>
              obtain ⟨c, hcsym, rfl⟩ := validTok_wordTok hvu hwu
              obtain ⟨tail, heq⟩ := renderTokens_cons_head sep [c] rest2
              rw [heq, List.cons_append]
              exact takeWhile_nil_of_head_false (sym_not_word hcsym)
        rw [List.append_assoc, tokenize_word_head t _ hne hall hboundary, htail]
        rfl
      · rw [List.append_assoc]
        show tokenize (c :: (sep [c] u ++ renderTokens sep (u :: rest2)))
            = some ([c] :: u :: rest2)
        rw [tokenize_sym_head c _ hc, htail]
        rfl

theorem compactSep_good : GoodSep compactSep := by
  intro a b
  constructor
  · intro c hc
    rw [compactSep] at hc
    by_cases hcond : b = [','] ∨ b = [')'] ∨ a = ['(']
    · rw [if_pos hcond] at hc
      simp at hc
    · rw [if_neg hcond] at hc
      simp at hc
      subst hc
      decide
  · intro ha hb
    rw [compactSep]
    have hcond : ¬(b = [','] ∨ b = [')'] ∨ a = ['(']) := by
      rintro (rfl | rfl | rfl)
      · exact absurd hb (by decide)
      · exact absurd hb (by decide)
      · exact absurd ha (by decide)
    rw [if_neg hcond]
    simp

theorem prettySep_good : GoodSep prettySep := by
  intro a b
  constructor
  · intro c hc
    rw [prettySep] at hc
    by_cases hcond : b = "FROM".data ∨ b = "WHERE".data
    · rw [if_pos hcond] at hc
      simp at hc
      subst hc
      decide
    · rw [if_neg hcond] at hc
      exact (compactSep_good a b).1 c hc
  · intro ha hb
    rw [prettySep]
    by_cases hcond : b = "FROM".data ∨ b = "WHERE".data
    · rw [if_pos hcond]
      simp
    · rw [if_neg hcond]
      exact (compactSep_good a b).2 ha hb

theorem alpha_isWordCh {c : Char} (h : c.isAlpha = true) : isWordCh c = true := by
  rw [isWordCh, Char.isAlphanum, Bool.or_eq_true, Bool.or_eq_true]
  exact Or.inl (Or.inl h)

theorem wfIdent_parts {s : String} (h : wfIdent s = true) :
    ∃ c rest, s.data = c :: rest ∧ (c.isAlpha = true ∨ c = '_')
      ∧ (∀ d ∈ rest, isWordCh d = true)
      ∧ s ≠ "SELECT" ∧ s ≠ "FROM" ∧ s ≠ "WHERE" := by
  rw [wfIdent] at h
  rcases hd : s.data with _ | ⟨c, rest⟩
  · rw [hd] at h
    exact Bool.noConfusion h
  · rw [hd] at h
    simp only [Bool.and_eq_true, Bool.or_eq_true, decide_eq_true_eq,
      Bool.not_eq_true', Bool.or_eq_false_iff, decide_eq_false_iff_not,
      List.all_eq_true] at h
    exact ⟨c, rest, rfl, h.1.1, h.1.2, h.2.1.1, h.2.1.2, h.2.2⟩

theorem wfIdent_all_word {s : String} (h : wfIdent s = true) :
    s.data ≠ [] ∧ ∀ c ∈ s.data, isWordCh c = true := by
  obtain ⟨c, rest, hd, hc, hrest, _⟩ := wfIdent_parts h
  rw [hd]
  refine ⟨by simp, ?_⟩
  intro d hdm
  rcases List.mem_cons.mp hdm with rfl | hdm2
  · rcases hc with hc | rfl
    · exact alpha_isWordCh hc
    · decide
  · exact hrest d hdm2

theorem validTok_of_word {t : List Char} (hne : t ≠ [])
    (hall : ∀ c ∈ t, isWordCh c = true) : ValidTok t := Or.inl ⟨hne, hall⟩

theorem natToken_validTok (n : Nat) : ValidTok (natToken n) :=
  validTok_of_word (natToken_ne_nil n)
    (fun c hc => isDigit_isWordCh (natToken_all_digit n c hc))

theorem opToken_validTok (op : CompOp) : ValidTok (opToken op) := by
  cases op with
  | eqOp => exact Or.inr ⟨'=', by decide, rfl⟩
  | ltOp => exact Or.inr ⟨'<', by decide, rfl⟩
  | gtOp => exact Or.inr ⟨'>', by decide, rfl⟩

theorem exprTokens_validTok (e : SExpr) (h : SExpr.wf e = true) :
    (∀ t ∈ exprTokens e, ValidTok t) ∧ (∀ t ∈ operandTokens e, ValidTok t) := by
  induction e with
  | intLit n =>
    constructor
    · intro t ht
      simp only [exprTokens, List.mem_singleton] at ht
      subst ht
      exact natToken_validTok n
    · intro t ht
      simp only [operandTokens, List.mem_singleton] at ht
      subst ht
      exact natToken_validTok n
  | ident s =>
    rw [SExpr.wf] at h
    have hid := wfIdent_all_word h
    constructor
    · intro t ht
      simp only [exprTokens, List.mem_singleton] at ht
      subst ht
      exact validTok_of_word hid.1 hid.2
    · intro t ht
      simp only [operandTokens, List.mem_singleton] at ht
      subst ht
      exact validTok_of_word hid.1 hid.2
  | binOp l op r ihl ihr =>
    rw [SExpr.wf, Bool.and_eq_true] at h
    have hl := ihl h.1
    have hr := ihr h.2
    have hcore : ∀ t ∈ operandTokens l ++ [opToken op] ++ operandTokens r, ValidTok t := by
      intro t ht
      rcases List.mem_append.mp ht with hlm | hrm
      · rcases List.mem_append.mp hlm with hll | hop
        · exact hl.2 t hll
        · rw [List.mem_singleton] at hop
          subst hop
          exact opToken_validTok op
      · exact hr.2 t hrm
    constructor
    · intro t ht
      simp only [exprTokens] at ht
      exact hcore t ht
    · intro t ht
      simp only [operandTokens] at ht
      rcases List.mem_append.mp ht with hlm | hparen
      · rcases List.mem_append.mp hlm with hp | hin
        · rw [List.mem_singleton] at hp
          subst hp
          exact Or.inr ⟨'(', by decide, rfl⟩
        · exact hcore t hin
      · rw [List.mem_singleton] at hparen
        subst hparen
        exact Or.inr ⟨')', by decide, rfl⟩

theorem listTokens_validTok :
    ∀ es : List SExpr, (∀ e ∈ es, SExpr.wf e = true) →
      ∀ t ∈ listTokens es, ValidTok t
  | [], _, t, ht => by simp only [listTokens] at ht; exact absurd ht (List.not_mem_nil t)
  | [e], h, t, ht => by
    simp only [listTokens] at ht
    exact (exprTokens_validTok e (h e (List.mem_singleton.mpr rfl))).1 t ht
  | e :: e2 :: rest, h, t, ht => by
    simp only [listTokens] at ht
    rcases List.mem_append.mp ht with hm | hm
    · rcases List.mem_append.mp hm with hm2 | hcomma
      · exact (exprTokens_validTok e (h e (List.mem_cons_self e _))).1 t hm2
      · rw [List.mem_singleton] at hcomma
        subst hcomma
        exact Or.inr ⟨',', by decide, rfl⟩
    · exact listTokens_validTok (e2 :: rest)
        (fun e3 he3 => h e3 (List.mem_cons_of_mem e he3)) t hm

theorem selectTokens_validTok (s : SSelect) (h : SSelect.wf s = true) :
    ∀ t ∈ selectTokens s, ValidTok t := by
  rw [SSelect.wf, Bool.and_eq_true, Bool.and_eq_true, Bool.and_eq_true] at h
  obtain ⟨⟨⟨hne, hall⟩, hfrom⟩, hwhere⟩ := h
  intro t ht
  rw [selectTokens] at ht
  rcases List.mem_append.mp ht with hm | hwm
  · rcases List.mem_append.mp hm with hm2 | hfm
    · rcases List.mem_append.mp hm2 with hsel | hlist
      · rw [List.mem_singleton] at hsel
        subst hsel
        exact validTok_of_word (by decide) (by decide)
      · exact listTokens_validTok s.selectList
          (fun e he => List.all_eq_true.mp hall e he) t hlist
    · cases hf : s.fromTable with
      | none =>
        rw [hf] at hfm
        rw [show fromToks none = [] from rfl] at hfm
        exact absurd hfm (List.not_mem_nil t)
      | some tbl =>
        rw [hf] at hfm hfrom
        rw [show fromToks (some tbl) = ["FROM".data, tbl.data] from rfl] at hfm
        rcases List.mem_cons.mp hfm with rfl | hfm2
        · exact validTok_of_word (by decide) (by decide)
        · rw [List.mem_singleton] at hfm2
          subst hfm2
          have hword := wfIdent_all_word hfrom
          exact validTok_of_word hword.1 hword.2
  · cases hw : s.whereClause with
    | none =>
      rw [hw] at hwm
      rw [show whereToks none = [] from rfl] at hwm
      exact absurd hwm (List.not_mem_nil t)
    | some w =>
      rw [hw] at hwm hwhere
      rw [show whereToks (some w) = "WHERE".data :: exprTokens w from rfl] at hwm
      rcases List.mem_cons.mp hwm with rfl | hwm2
      · exact validTok_of_word (by decide) (by decide)
      · exact (exprTokens_validTok w hwhere).1 t hwm2

theorem nodeTokens_validTok (n : SNode) (h : SNode.wf n = true) :
    ∀ t ∈ nodeTokens n, ValidTok t := by
  cases n with
  | expr e =>
    rw [SNode.wf] at h
    intro t ht
    rw [nodeTokens] at ht
    exact (exprTokens_validTok e h).1 t ht
  | select s =>
    rw [SNode.wf] at h
    intro t ht
    rw [nodeTokens] at ht
    exact selectTokens_validTok s h t ht

theorem tokenize_serialize (n : SNode) (m : Mode) (h : SNode.wf n = true) :
    tokenize (serialize n m).data = some (nodeTokens n) := by
  have hdata : (serialize n m).data = renderTokens (sepFor m) (nodeTokens n) := rfl
  rw [hdata]
  cases m with
  | compact => exact tokenize_render compactSep compactSep_good _ (nodeTokens_validTok n h)
  | pretty => exact tokenize_render prettySep prettySep_good _ (nodeTokens_validTok n h)

theorem isAlpha_not_isDigit (c : Char) (h : c.isAlpha = true) : c.isDigit = false := by
  rw [Char.isAlpha, Bool.or_eq_true] at h
  cases hdig : c.isDigit with
  | false => rfl
  | true =>
    exfalso
    rw [Char.isDigit] at hdig
    simp only [Bool.and_eq_true, decide_eq_true_eq] at hdig
    have hd2 : c.val.toNat ≤ (57 : UInt32).toNat := hdig.2
    have h57 : (57 : UInt32).toNat = 57 := by decide
    rcases h with h | h
    · rw [Char.isUpper] at h
      simp only [Bool.and_eq_true, decide_eq_true_eq] at h
      have h1 : (65 : UInt32).toNat ≤ c.val.toNat := h.1
      have h65 : (65 : UInt32).toNat = 65 := by decide
      omega
    · rw [Char.isLower] at h
      simp only [Bool.and_eq_true, decide_eq_true_eq] at h
      have h1 : (97 : UInt32).toNat ≤ c.val.toNat := h.1
      have h97 : (97 : UInt32).toNat = 97 := by decide
      omega

theorem tokOp_opToken (op : CompOp) : tokOp (opToken op) = some op := by
  cases op <;> rfl

theorem tokOp_none_of_word {t : List Char} (h : isWordTok t = true) : tokOp t = none := by
  have h1 : t ≠ ['='] := by rintro rfl; exact absurd h (by decide)
  have h2 : t ≠ ['<'] := by rintro rfl; exact absurd h (by decide)
  have h3 : t ≠ ['>'] := by rintro rfl; exact absurd h (by decide)
  simp [tokOp, h1, h2, h3]

theorem isDigitTok_natToken (n : Nat) : isDigitTok (natToken n) = true := by
  rw [isDigitTok, Bool.and_eq_true]
  constructor
  · cases hnt : natToken n with
    | nil => exact absurd hnt (natToken_ne_nil n)
    | cons c w => rfl
  · rw [List.all_eq_true]
    exact natToken_all_digit n

theorem natToken_ne_lparen (n : Nat) : natToken n ≠ ['('] := by
  intro h
  have hdig := natToken_all_digit n '(' (by rw [h]; exact List.mem_singleton.mpr rfl)
  exact absurd hdig (by decide)

theorem wfIdent_tok {s : String} (h : wfIdent s = true) :
    s.data ≠ ['('] ∧ isDigitTok s.data = false ∧ isWordTok s.data = true := by
  obtain ⟨c, rest, hd, hc, hrest, _⟩ := wfIdent_parts h
  have hcd : c.isDigit = false := by
    rcases hc with hc | rfl
    · exact isAlpha_not_isDigit c hc
    · decide
  have hword := wfIdent_all_word h
  refine ⟨?_, ?_, validTok_word_isWordTok hword.1 hword.2⟩
  · rw [hd]
    intro heq
    have hcp : c = '(' := (List.cons.injEq c rest '(' []).mp heq |>.1
    subst hcp
    rcases hc with hca | hcu
    · exact absurd hca (by decide)
    · exact absurd hcu (by decide)
  · rw [hd, isDigitTok]
    simp [hcd]

theorem parseAtom_nat (n : Nat) (fuel : Nat) (rest : List (List Char)) :
    parseAtom (fuel + 1) (natToken n :: rest) = some (.intLit n, rest) := by
  simp only [parseAtom]
  rw [if_neg (natToken_ne_lparen n), if_pos (isDigitTok_natToken n), readNat_natToken]

theorem parseAtom_ident (s : String) (hwf : wfIdent s = true) (fuel : Nat)
    (rest : List (List Char)) :
    parseAtom (fuel + 1) (s.data :: rest) = some (.ident s, rest) := by
  obtain ⟨hne, hdig, hword⟩ := wfIdent_tok hwf
  simp only [parseAtom]
  rw [if_neg hne, if_neg (by rw [hdig]; exact Bool.false_ne_true), if_pos hword]

theorem parse_inv (e : SExpr) (hwf : SExpr.wf e = true) :
    (∀ fuel rest, atomFuel e ≤ fuel →
        parseAtom fuel (operandTokens e ++ rest) = some (e, rest))
    ∧ (∀ fuel rest, exprFuel e ≤ fuel →
        (∀ u rest2, rest = u :: rest2 → tokOp u = none) →
        parseExprF fuel (exprTokens e ++ rest) = some (e, rest)) := by
  induction e with
  | intLit n =>
    constructor
    · intro fuel rest hfuel
      cases fuel with
      | zero => exact absurd hfuel (by rw [show atomFuel (SExpr.intLit n) = 1 from rfl]; omega)
      | succ f =>
        rw [operandTokens, List.cons_append, List.nil_append]
        exact parseAtom_nat n f rest
    · intro fuel rest hfuel hrest
      cases fuel with
      | zero =>
        exact absurd hfuel (by rw [show exprFuel (SExpr.intLit n) = 2 from rfl]; omega)
      | succ f =>
        simp only [parseExprF]
        rw [exprTokens, List.cons_append, List.nil_append]
        cases f with
        | zero =>
          exact absurd hfuel (by rw [show exprFuel (SExpr.intLit n) = 2 from rfl]; omega)
        | succ f2 =>
          rw [parseAtom_nat n f2 rest]
          cases rest with
          | nil => rfl
          | cons u rest2 =>
            have hop := hrest u rest2 rfl
            dsimp only
            rw [hop]
  | ident s =>
    rw [SExpr.wf] at hwf
    constructor
    · intro fuel rest hfuel
      cases fuel with
      | zero => exact absurd hfuel (by rw [show atomFuel (SExpr.ident s) = 1 from rfl]; omega)
      | succ f =>
        rw [operandTokens, List.cons_append, List.nil_append]
        exact parseAtom_ident s hwf f rest
    · intro fuel rest hfuel hrest
      cases fuel with
      | zero =>
        exact absurd hfuel (by rw [show exprFuel (SExpr.ident s) = 2 from rfl]; omega)
      | succ f =>
        simp only [parseExprF]
        rw [exprTokens, List.cons_append, List.nil_append]
        cases f with
        | zero =>
          exact absurd hfuel (by rw [show exprFuel (SExpr.ident s) = 2 from rfl]; omega)
        | succ f2 =>
          rw [parseAtom_ident s hwf f2 rest]
          cases rest with
          | nil => rfl
          | cons u rest2 =>
            have hop := hrest u rest2 rfl
            dsimp only
            rw [hop]
  | binOp l op r ihl ihr =>
    rw [SExpr.wf, Bool.and_eq_true] at hwf
    have hl := ihl hwf.1
    have hr := ihr hwf.2
    have hexpr : ∀ fuel rest, exprFuel (.binOp l op r) ≤ fuel →
        (∀ u rest2, rest = u :: rest2 → tokOp u = none) →
        parseExprF fuel (exprTokens (.binOp l op r) ++ rest) = some (.binOp l op r, rest) := by
      intro fuel rest hfuel _
      rw [exprFuel] at hfuel
      cases fuel with
      | zero => exact absurd hfuel (by omega)
      | succ f =>
        simp only [parseExprF]
        rw [exprTokens, List.append_assoc, List.append_assoc, List.cons_append,
          List.nil_append]
        rw [hl.1 f (opToken op :: (operandTokens r ++ rest)) (by omega)]
        dsimp only
        rw [tokOp_opToken op]
        rw [hr.1 f rest (by omega)]
    refine ⟨?_, hexpr⟩
    intro fuel rest hfuel
    rw [atomFuel] at hfuel
    cases fuel with
    | zero => exact absurd hfuel (by omega)
    | succ f =>
      rw [operandTokens]
      rw [List.append_assoc, List.append_assoc, List.cons_append, List.nil_append]
      simp only [parseAtom, if_true]
      have hshape : operandTokens l ++ [opToken op] ++ operandTokens r ++ ([[')']] ++ rest)
          = exprTokens (.binOp l op r) ++ ([')'] :: rest) := by
        rw [exprTokens]
        simp [List.append_assoc]
      rw [hshape]
      rw [hexpr f ([')'] :: rest) (by rw [exprFuel]; omega)
        (fun u rest2 hu => by
          have hu2 : u = [')'] := ((List.cons.injEq [')'] rest u rest2).mp hu).1.symm
          rw [hu2]
          rfl)]
      dsimp only
      rw [if_pos rfl]

theorem parseList_inv :
    ∀ (es : List SExpr), es ≠ [] → (∀ e ∈ es, SExpr.wf e = true) →
      ∀ fuel rest, listFuel es ≤ fuel →
        (∀ u rest2, rest = u :: rest2 → tokOp u = none ∧ u ≠ [',']) →
        parseList fuel (listTokens es ++ rest) = some (es, rest)
  | [], hne, _, _, _, _, _ => absurd rfl hne
  | [e], _, hwf, fuel, rest, hfuel, hrest => by
    have hwfe : SExpr.wf e = true := hwf e (List.mem_singleton.mpr rfl)
    rw [show listFuel [e] = exprFuel e + 1 from rfl] at hfuel
    cases fuel with
    | zero => exact absurd hfuel (by omega)
    | succ f =>
      simp only [parseList]
      rw [show listTokens [e] = exprTokens e from rfl]
      rw [(parse_inv e hwfe).2 f rest (by omega)
        (fun u rest2 hu => (hrest u rest2 hu).1)]
      cases rest with
      | nil => rfl
      | cons u rest2 =>
        dsimp only
        rw [if_neg (hrest u rest2 rfl).2]
  | e :: e2 :: esr, _, hwf, fuel, rest, hfuel, hrest => by
    have hwfe : SExpr.wf e = true := hwf e (List.mem_cons_self e _)
    rw [show listFuel (e :: e2 :: esr) = max (exprFuel e) (listFuel (e2 :: esr)) + 1
      from rfl] at hfuel
    cases fuel with
    | zero => exact absurd hfuel (by omega)
    | succ f =>
      simp only [parseList]
      rw [show listTokens (e :: e2 :: esr)
          = exprTokens e ++ [[',']] ++ listTokens (e2 :: esr) from rfl]
      rw [List.append_assoc, List.append_assoc]
      rw [show ([[',']] : List (List Char)) ++ (listTokens (e2 :: esr) ++ rest)
          = [','] :: (listTokens (e2 :: esr) ++ rest) from rfl]
      rw [(parse_inv e hwfe).2 f ([','] :: (listTokens (e2 :: esr) ++ rest)) (by omega)
        (fun u rest2 hu => by
          have hu2 : u = [','] :=
            ((List.cons.injEq [','] _ u rest2).mp hu).1.symm
          rw [hu2]
          rfl)]
      dsimp only
      rw [if_pos rfl]
      rw [parseList_inv (e2 :: esr) (by simp)
        (fun e3 he3 => hwf e3 (List.mem_cons_of_mem e he3)) f rest (by omega) hrest]

theorem parseWhereTail_nil (fuel : Nat) : parseWhereTail fuel [] = some none := rfl

theorem parseWhereTail_where (w : SExpr) (hwf : SExpr.wf w = true) (fuel : Nat)
    (hfuel : exprFuel w ≤ fuel) :
    parseWhereTail fuel ("WHERE".data :: exprTokens w) = some (some w) := by
  rw [parseWhereTail, if_pos rfl]
  have hw := (parse_inv w hwf).2 fuel [] hfuel (fun u rest2 hu => List.noConfusion hu)
  rw [List.append_nil] at hw
  rw [hw]

theorem fuel_le_tokens :
    ∀ e : SExpr, atomFuel e ≤ 2 * (operandTokens e).length
      ∧ exprFuel e ≤ 2 * (exprTokens e).length + 1 := by
  intro e
  induction e with
  | intLit n =>
    constructor
    · rw [show atomFuel (SExpr.intLit n) = 1 from rfl, operandTokens]
      simp
    · rw [show exprFuel (SExpr.intLit n) = 2 from rfl, exprTokens]
      simp
  | ident s =>
    constructor
    · rw [show atomFuel (SExpr.ident s) = 1 from rfl, operandTokens]
      simp
    · rw [show exprFuel (SExpr.ident s) = 2 from rfl, exprTokens]
      simp
  | binOp l op r ihl ihr =>
    have hlen : (exprTokens (SExpr.binOp l op r)).length
        = (operandTokens l).length + 1 + (operandTokens r).length := by
      rw [exprTokens]
      simp
      omega
    have hlen2 : (operandTokens (SExpr.binOp l op r)).length
        = (exprTokens (SExpr.binOp l op r)).length + 2 := by
      rw [operandTokens, exprTokens]
      simp
      omega
    constructor
    · rw [show atomFuel (SExpr.binOp l op r)
          = 2 + max (atomFuel l) (atomFuel r) from rfl, hlen2, hlen]
      have h1 := ihl.1
      have h2 := ihr.1
      omega
    · rw [show exprFuel (SExpr.binOp l op r)
          = 1 + max (atomFuel l) (atomFuel r) from rfl, hlen]
      have h1 := ihl.1
      have h2 := ihr.1
      omega

theorem exprTokens_ne_nil (e : SExpr) : exprTokens e ≠ [] := by
  cases e with
  | intLit n => rw [exprTokens]; simp
  | ident s => rw [exprTokens]; simp
  | binOp l op r =>
    rw [exprTokens]
    intro h
    rw [List.append_eq_nil] at h
    rw [List.append_eq_nil] at h
    obtain ⟨⟨_, h2⟩, _⟩ := h
    exact List.noConfusion h2

theorem listFuel_le :
    ∀ es : List SExpr, es ≠ [] → listFuel es ≤ 2 * (listTokens es).length + 2
  | [], hne => absurd rfl hne
  | [e], _ => by
    rw [show listFuel [e] = exprFuel e + 1 from rfl,
      show listTokens [e] = exprTokens e from rfl]
    have := (fuel_le_tokens e).2
    omega
  | e :: e2 :: esr, _ => by
    rw [show listFuel (e :: e2 :: esr) = max (exprFuel e) (listFuel (e2 :: esr)) + 1
      from rfl]
    rw [show listTokens (e :: e2 :: esr)
        = exprTokens e ++ [[',']] ++ listTokens (e2 :: esr) from rfl]
    have h1 := (fuel_le_tokens e).2
    have h2 := listFuel_le (e2 :: esr) (by simp)
    have h3 : (exprTokens e).length ≥ 1 := by
      cases he : exprTokens e with
      | nil => exact absurd he (exprTokens_ne_nil e)
      | cons t ts => simp
    simp only [List.length_append, List.length_cons, List.length_nil]
    omega

theorem operandTokens_head (e : SExpr) (hwf : SExpr.wf e = true) :
    ∃ t ts, operandTokens e = t :: ts ∧ t ≠ "SELECT".data := by
  cases e with
  | intLit n =>
    refine ⟨natToken n, [], by rw [operandTokens], ?_⟩
    intro h
    have hS := natToken_all_digit n 'S' (by rw [h]; decide)
    exact absurd hS (by decide)
  | ident s =>
    rw [SExpr.wf] at hwf
    obtain ⟨c, rest, hd, _, _, hsel, _, _⟩ := wfIdent_parts hwf
    refine ⟨s.data, [], by rw [operandTokens], ?_⟩
    intro h
    apply hsel
    cases s
    simp only at h
    rw [h]
  | binOp l op r =>
    exact ⟨['('], _, by rw [operandTokens]; rfl, by decide⟩

theorem exprTokens_head (e : SExpr) (hwf : SExpr.wf e = true) :
    ∃ t ts, exprTokens e = t :: ts ∧ t ≠ "SELECT".data := by
  cases e with
  | intLit n =>
    obtain ⟨t, ts, heq, hne⟩ := operandTokens_head (.intLit n) hwf
    exact ⟨t, ts, by rw [exprTokens]; rw [operandTokens] at heq; exact heq, hne⟩
  | ident s =>
    obtain ⟨t, ts, heq, hne⟩ := operandTokens_head (.ident s) hwf
    exact ⟨t, ts, by rw [exprTokens]; rw [operandTokens] at heq; exact heq, hne⟩
  | binOp l op r =>
    rw [SExpr.wf, Bool.and_eq_true] at hwf
    obtain ⟨t, ts, heq, hne⟩ := operandTokens_head l hwf.1
    refine ⟨t, ts ++ [opToken op] ++ operandTokens r, ?_, hne⟩
    rw [exprTokens, heq]
    simp [List.append_assoc]

theorem wf_select_parts (sl : List SExpr) (ft : Option String) (wc : Option SExpr)
    (h : SSelect.wf ⟨sl, ft, wc⟩ = true) :
    sl ≠ [] ∧ (∀ e ∈ sl, SExpr.wf e = true)
      ∧ (∀ t, ft = some t → wfIdent t = true)
      ∧ (∀ w, wc = some w → SExpr.wf w = true) := by
  rw [SSelect.wf, Bool.and_eq_true, Bool.and_eq_true, Bool.and_eq_true] at h
  obtain ⟨⟨⟨hne, hall⟩, hft⟩, hwc⟩ := h
  refine ⟨?_, ?_, ?_, ?_⟩
  · intro heq
    subst heq
    exact Bool.noConfusion hne
  · exact fun e he => List.all_eq_true.mp hall e he
  · intro t heq
    rw [heq] at hft
    exact hft
  · intro w heq
    rw [heq] at hwc
    exact hwc

theorem parseSelectTail_inv (sl : List SExpr) (ft : Option String) (wc : Option SExpr)
    (h : SSelect.wf ⟨sl, ft, wc⟩ = true) (fuel : Nat)
    (hfl : listFuel sl ≤ fuel)
    (hfw : ∀ w, wc = some w → exprFuel w ≤ fuel) :
    parseSelectTail fuel (listTokens sl ++ fromToks ft ++ whereToks wc)
      = some ⟨sl, ft, wc⟩ := by
  obtain ⟨hne, hall, hft, hwc⟩ := wf_select_parts sl ft wc h
  cases ft with
  | some t =>
    have hwft := hft t rfl
    have hword := (wfIdent_tok hwft).2.2
    cases wc with
    | some w =>
      have hwfw := hwc w rfl
      rw [show fromToks (some t) = ["FROM".data, t.data] from rfl,
        show whereToks (some w) = "WHERE".data :: exprTokens w from rfl,
        List.append_assoc]
      rw [show (["FROM".data, t.data] ++ ("WHERE".data :: exprTokens w))
          = "FROM".data :: t.data :: "WHERE".data :: exprTokens w from rfl]
      rw [parseSelectTail]
      rw [parseList_inv sl hne hall fuel _ hfl
        (fun u r2 hu => by
          have hu2 : u = "FROM".data :=
            ((List.cons.injEq "FROM".data _ u r2).mp hu).1.symm
          rw [hu2]
          exact ⟨rfl, by decide⟩)]
      dsimp only
      rw [if_pos rfl, if_pos hword,
        parseWhereTail_where w hwfw fuel (hfw w rfl)]
    | none =>
      rw [show fromToks (some t) = ["FROM".data, t.data] from rfl,
        show whereToks none = [] from rfl, List.append_nil]
      rw [show listTokens sl ++ ["FROM".data, t.data]
          = listTokens sl ++ ("FROM".data :: t.data :: []) from rfl]
      rw [parseSelectTail]
      rw [parseList_inv sl hne hall fuel _ hfl
        (fun u r2 hu => by
          have hu2 : u = "FROM".data :=
            ((List.cons.injEq "FROM".data _ u r2).mp hu).1.symm
          rw [hu2]
          exact ⟨rfl, by decide⟩)]
      dsimp only
      rw [if_pos rfl, if_pos hword, parseWhereTail_nil fuel]
  | none =>
    cases wc with
    | some w =>
      have hwfw := hwc w rfl
      rw [show fromToks (none : Option String) = [] from rfl,
        show whereToks (some w) = "WHERE".data :: exprTokens w from rfl,
        List.append_nil]
      rw [parseSelectTail]
      rw [parseList_inv sl hne hall fuel _ hfl
        (fun u r2 hu => by
          have hu2 : u = "WHERE".data :=
            ((List.cons.injEq "WHERE".data _ u r2).mp hu).1.symm
          rw [hu2]
          exact ⟨rfl, by decide⟩)]
      dsimp only
      rw [if_neg (by decide), parseWhereTail_where w hwfw fuel (hfw w rfl)]
    | none =>
      rw [show fromToks (none : Option String) = [] from rfl,
        show whereToks (none : Option SExpr) = [] from rfl,
        List.append_nil, List.append_nil]
      rw [parseSelectTail]
      rw [show listTokens sl = listTokens sl ++ [] from (List.append_nil _).symm]
      rw [parseList_inv sl hne hall fuel [] hfl
        (fun u r2 hu => List.noConfusion hu)]

theorem parseTokens_nodeTokens (n : SNode) (h : SNode.wf n = true) :
    parseTokens (nodeTokens n) = some n := by
  cases n with
  | expr e =>
    rw [SNode.wf] at h
    obtain ⟨t, ts, heq, hne⟩ := exprTokens_head e h
    rw [nodeTokens, heq, parseTokens, if_neg hne, ← heq]
    have hfuel : exprFuel e ≤ fuelOf (exprTokens e) := by
      rw [fuelOf]
      have := (fuel_le_tokens e).2
      omega
    have hp := (parse_inv e h).2 (fuelOf (exprTokens e)) [] hfuel
      (fun u r2 hu => List.noConfusion hu)
    rw [List.append_nil] at hp
    rw [hp]
  | select s =>
    obtain ⟨sl, ft, wc⟩ := s
    rw [SNode.wf] at h
    obtain ⟨hne, hall, hft, hwc⟩ := wf_select_parts sl ft wc h
    rw [nodeTokens]
    rw [show selectTokens ⟨sl, ft, wc⟩
        = "SELECT".data :: (listTokens sl ++ fromToks ft ++ whereToks wc) from rfl]
    rw [parseTokens, if_pos rfl]
    have hfl : listFuel sl
        ≤ fuelOf ("SELECT".data :: (listTokens sl ++ fromToks ft ++ whereToks wc)) := by
      rw [fuelOf]
      have h1 := listFuel_le sl hne
      simp only [List.length_cons, List.length_append]
      omega
    have hfw : ∀ w, wc = some w →
        exprFuel w
          ≤ fuelOf ("SELECT".data :: (listTokens sl ++ fromToks ft ++ whereToks wc)) := by
      intro w hw
      subst hw
      rw [fuelOf]
      have h1 := (fuel_le_tokens w).2
      rw [show whereToks (some w) = "WHERE".data :: exprTokens w from rfl]
      simp only [List.length_cons, List.length_append]
      omega
    rw [parseSelectTail_inv sl ft wc h _ hfl hfw]

/-- C1: for every constructible node of the modelled taxonomy and for each
mode, re-parsing the serialized text with the conforming parser yields a
tree structurally equal to the input, variant-for-variant and
child-for-child. -/
theorem serialize_parse_roundtrip (n : SNode) (m : Mode) (h : SNode.wf n = true) :
    parseConforming (serialize n m) = some n := by
  rw [parseConforming, tokenize_serialize n m h]
  exact parseTokens_nodeTokens n h

/-- Witness for the round-trip theorem: the spec's own end-to-end select -
`SELECT id, name FROM t WHERE id = 1` - in both modes, plus a nested
comparison expression. -/
theorem serialize_parse_roundtrip_witness :
    SNode.wf (.select ⟨[.ident "id", .ident "name"], some "t",
        some (.binOp (.ident "id") .eqOp (.intLit 1))⟩) = true
    ∧ parseConforming (serialize (.select ⟨[.ident "id", .ident "name"], some "t",
        some (.binOp (.ident "id") .eqOp (.intLit 1))⟩) .compact)
      = some (.select ⟨[.ident "id", .ident "name"], some "t",
        some (.binOp (.ident "id") .eqOp (.intLit 1))⟩)
    ∧ parseConforming (serialize (.select ⟨[.ident "id", .ident "name"], some "t",
        some (.binOp (.ident "id") .eqOp (.intLit 1))⟩) .pretty)
      = some (.select ⟨[.ident "id", .ident "name"], some "t",
        some (.binOp (.ident "id") .eqOp (.intLit 1))⟩)
    ∧ parseConforming (serialize (.expr (.binOp (.binOp (.ident "a") .ltOp (.intLit 2))
        .eqOp (.ident "b"))) .compact)
      = some (.expr (.binOp (.binOp (.ident "a") .ltOp (.intLit 2)) .eqOp (.ident "b"))) :=
  ⟨by decide,
   serialize_parse_roundtrip (.select ⟨[.ident "id", .ident "name"], some "t",
     some (.binOp (.ident "id") .eqOp (.intLit 1))⟩) .compact (by decide),
   serialize_parse_roundtrip (.select ⟨[.ident "id", .ident "name"], some "t",
     some (.binOp (.ident "id") .eqOp (.intLit 1))⟩) .pretty (by decide),
   serialize_parse_roundtrip (.expr (.binOp (.binOp (.ident "a") .ltOp (.intLit 2))
     .eqOp (.ident "b"))) .compact (by decide)⟩

end BQAst
